import Mathlib

/-!
# Textbook RSA (`pkg/rsa_alg/rsa.go`): embedding and verified properties

The Go package works on `*big.Int` values and on strings seen as byte
sequences.  Here an integer value is an `Int`, a byte is a `Fin 256`, a string
or `[]byte` is a `List Byte`, and a `*big.Int` that may be `nil` (the result of
`Exp`, an element of a `[]*big.Int`) is an `Option Int`.  The arguments `e`,
`d`, `n`, `a`, `m` of the functions are non-nil integers.  Where two slots of a
slice may point to the same `big.Int` (`DecryptShared`), a slice is a list of
addresses into a heap of integers.

A run of a Go function either returns, panics, or is still running when the
fuel given to the model of its loop is used up: see `Outcome`.
-/

namespace RsaAlg

/-- One byte of a Go string or `[]byte`. -/
abbrev Byte := Fin 256

/-- The way a call ends: it returns a value, it panics (division by zero, slice
bounds out of range, nil dereference), or the fuel of the model ran out before
the loop was left. -/
inductive Outcome (α : Type) where
  | returned (v : α) : Outcome α
  | panicked : Outcome α
  | unfinished : Outcome α
deriving DecidableEq

/-! ## The parts of `math/big` that the package calls -/

/-- Big-endian unsigned value of a byte sequence, as a natural number. -/
def beValue (buf : List Byte) : Nat :=
  buf.foldl (fun acc b => acc * 256 + b.val) 0

/-- The method `(*big.Int).SetBytes`: the bytes read as a big-endian unsigned
integer. -/
def bigSetBytes (buf : List Byte) : Int :=
  Int.ofNat (beValue buf)

/-- Digits of `v` in base 256, most significant first, pushed in front of
`acc`; `fuel` bounds the number of digits. -/
def natBytes : Nat → Nat → List Byte → List Byte
  | 0, _, acc => acc
  | fuel + 1, v, acc =>
    if v = 0 then acc
    else natBytes fuel (v / 256) (⟨v % 256, Nat.mod_lt v (by decide)⟩ :: acc)

/-- The method `(*big.Int).Bytes`: the absolute value as a big-endian byte
slice without leading zero bytes (empty for zero). -/
def bigBytes (x : Int) : List Byte :=
  natBytes x.natAbs x.natAbs []

/-- Number of binary digits of `v`; `fuel` bounds the number of digits. -/
def natBitLen : Nat → Nat → Nat
  | 0, _ => 0
  | fuel + 1, v => if v = 0 then 0 else natBitLen fuel (v / 2) + 1

/-- The method `(*big.Int).BitLen`: the length of the absolute value in bits,
0 for zero. -/
def bigBitLen (x : Int) : Nat :=
  natBitLen x.natAbs x.natAbs

/-- The inverse of `x` modulo `m > 0` in `[0, m)`, as `(*big.Int).ModInverse`
gives it when `x` and `m` are relatively prime: the least `k` with
`x * k ≡ 1 (mod m)`. -/
def bigModInverse (x : Int) (m : Nat) : Int :=
  Int.ofNat (((List.range m).find?
    (fun k => decide ((x * Int.ofNat k) % Int.ofNat m = 1 % Int.ofNat m))).getD 0)

/-- The method `z.Exp(x, y, m)` of `math/big`: `x**y mod |m|`.  With `m = 0` it
is `x**y`, or 1 when `y ≤ 0`.  With `y < 0` and `m ≠ 0` it is `nil` (here
`none`, `z` left unchanged) when `x` and `m` are not relatively prime;
otherwise the method raises the inverse of `x` modulo `|m|` to the power `|y|`,
and, as for every modular case, when `x` is negative, the exponent odd and the
power `r` not zero, it returns `|m| - r`.  For `y ≥ 0` that is `x**y mod |m|`
in `[0, |m|)`, which is what `%` on `Int` gives. -/
def bigExp (x y m : Int) : Option Int :=
  if y < 0 then
    if m = 0 then some 1
    else if Int.gcd x m = 1 then
      let r := (bigModInverse x m.natAbs) ^ y.natAbs % (m.natAbs : Int)
      some (if x < 0 ∧ y.natAbs % 2 = 1 ∧ r ≠ 0 then (m.natAbs : Int) - r else r)
    else none
  else if m = 0 then some (x ^ y.toNat)
  else some (x ^ y.toNat % (m.natAbs : Int))

/-! ## `rsa.go` -/

/-- The constant `paddingSize`. -/
def paddingSize : Int := 11

/-- The loop of `modInverse` on the state `(a, m, x0, x1)`: while `a > 1`,
`q := a / m` and `m := a mod m` (both panic on `m = 0`), `a :=` the old `m`,
`x0 := x1 - q * x0`, `x1 :=` the old `x0`.  Returns the final `x1`.  `Div` and
`Mod` of `math/big` are Euclidean, as `/` and `%` on `Int` are. -/
def modInverseLoop : Nat → Int → Int → Int → Int → Outcome Int
  | 0, _, _, _, _ => .unfinished
  | fuel + 1, a, m, x0, x1 =>
    if a > 1 then
      if m = 0 then .panicked
      else modInverseLoop fuel m (a % m) (x1 - (a / m) * x0) x0
    else .returned x1

/-- The function `modInverse(a, m)`: the loop started at `x0 = 0`, `x1 = 1`,
then one addition of the original modulus `m0` when `x1` is negative.  The
loop is given `|m| + 2` units of fuel, more than it ever uses (see
`modInverseLoop_finishes`). -/
def modInverse (a m : Int) : Outcome Int :=
  match modInverseLoop (m.natAbs + 2) a m 0 1 with
  | .returned x1 => .returned (if x1 < 0 then x1 + m else x1)
  | .panicked => .panicked
  | .unfinished => .unfinished

/-- The function `generatePrime(bits)`, as the set of values `p` it can return.
It returns the result of `rand.Prime(rand.Reader, bits)`, which fails for
`bits < 2` and otherwise draws numbers of exactly `bits` bits with the two top
bits and the low bit set until one passes the primality test: a prime `p` with
`3 * 2^(bits-2) ≤ p < 2^bits` and `p` odd.  A 2-bit result is always 3. -/
def generatePrimeReturns (bits p : Nat) : Prop :=
  2 ≤ bits ∧ p.Prime ∧ p % 2 = 1 ∧ 3 * 2 ^ (bits - 2) ≤ p ∧ p < 2 ^ bits

/-- The function `GenerateKeys`, with the two primes drawn by
`generatePrime(bits / 2)` (see `generatePrimeReturns`) as inputs `p` and `q`:
`n = p*q`, `phi = (p-1)*(q-1)`, `e = 65537`, `d = modInverse(e, phi)`; returns
`(n, e, d)`. -/
def GenerateKeys (p q : Int) : Outcome (Int × Int × Int) :=
  let n := p * q
  let phi := (p - 1) * (q - 1)
  let e : Int := 65537
  match modInverse e phi with
  | .returned d => .returned (n, e, d)
  | .panicked => .panicked
  | .unfinished => .unfinished

/-- The function `encryptBlock`: `Exp(SetBytes(block), e, n)` into a fresh
integer. -/
def encryptBlock (block : List Byte) (e n : Int) : Option Int :=
  bigExp (bigSetBytes block) e n

/-- The function `decryptBlock` on the cell `ciphertext` points to:
`ciphertext.Exp(ciphertext, d, n)` stores the power in that same cell, and the
block is its `Bytes()`.  Returns the block and the new content of the cell.  A
nil `ciphertext`, or a nil result of `Exp`, is a nil dereference. -/
def decryptBlock (ciphertext : Option Int) (d n : Int) :
    Outcome (List Byte × Option Int) :=
  match ciphertext with
  | none => .panicked
  | some c =>
    match bigExp c d n with
    | none => .panicked
    | some z => .returned (bigBytes z, some z)

/-- The slice expression `s[lo:hi]` of Go on a string: it panics unless
`0 ≤ lo ≤ hi ≤ len(s)`. -/
def sliceBytes (s : List Byte) (lo hi : Int) : Option (List Byte) :=
  if 0 ≤ lo ∧ lo ≤ hi ∧ hi ≤ (s.length : Int) then
    some ((s.drop lo.toNat).take (hi.toNat - lo.toNat))
  else none

/-- The block size computed by `Encrypt`: `n.BitLen()/8 - paddingSize`. -/
def blockSizeOf (n : Int) : Int :=
  ((bigBitLen n / 8 : Nat) : Int) - paddingSize

/-- The loop of `Encrypt` on the state `(i, ciphertexts)`:
`for i := 0; i < len(message); i += blockSize`, each turn slicing
`message[i:end]` with `end = min(i + blockSize, len(message))` and appending
its `encryptBlock`.  The lengths of a message and of a modulus are bounded by
the memory, far below the range of `int`, so `i + blockSize` is computed
without wrap-around. -/
def EncryptLoop : Nat → List Byte → Int → Int → Int → Int → List (Option Int) →
    Outcome (List (Option Int))
  | 0, _, _, _, _, _, _ => .unfinished
  | fuel + 1, message, e, n, blockSize, i, ciphertexts =>
    if i < (message.length : Int) then
      let stop : Int :=
        if i + blockSize > (message.length : Int) then (message.length : Int)
        else i + blockSize
      match sliceBytes message i stop with
      | none => .panicked
      | some block =>
        EncryptLoop fuel message e n blockSize (i + blockSize)
          (ciphertexts ++ [encryptBlock block e n])
    else .returned ciphertexts

/-- The function `Encrypt`: the loop from `i = 0` with no ciphertexts, and the
pair of the ciphertexts and the block size.  A loop that is ever left is left
within `len(message)` turns (see `EncryptLoop_fuel`), so the fuel
`len(message) + 1` only runs out on a loop that never ends. -/
def Encrypt (message : List Byte) (e n : Int) : Outcome (List (Option Int) × Int) :=
  match EncryptLoop (message.length + 1) message e n (blockSizeOf n) 0 [] with
  | .returned ciphertexts => .returned (ciphertexts, blockSizeOf n)
  | .panicked => .panicked
  | .unfinished => .unfinished

/-- The function `join`: the parts appended one after the other. -/
def join (parts : List (List Byte)) : List Byte :=
  parts.foldl (fun result part => result ++ part) []

/-- The goroutines of `Decrypt` on a slice in which every slot holds a
`big.Int` of its own, as in the slices `Encrypt` builds (for slices whose slots
may share a `big.Int` see `runWorkersShared`; the two agree on slices without
sharing, `runWorkers_eq_shared`).  They complete in the order `order` (a list
of slice indices): goroutine `i` runs `decryptBlock` on the cell of slot `i`,
which overwrites that cell, and sends `(i, block)` on the channel.  The state is
the content of the cells and the channel. -/
def runWorkers : List Nat → List (Option Int) → Int → Int → List (Nat × List Byte) →
    Outcome (List (Option Int) × List (Nat × List Byte))
  | [], cells, _, _, messageCh => .returned (cells, messageCh)
  | i :: rest, cells, d, n, messageCh =>
    match cells[i]? with
    | none => .panicked
    | some ciphertext =>
      match decryptBlock ciphertext d n with
      | .returned (block, cell) =>
        runWorkers rest (cells.set i cell) d n (messageCh ++ [(i, block)])
      | .panicked => .panicked
      | .unfinished => .unfinished

/-- The reassembly loop of `Decrypt`: `message[result.index] = result.block`
for the results in the order they are received. -/
def collect (messageCh : List (Nat × List Byte)) (message : List (List Byte)) :
    List (List Byte) :=
  messageCh.foldl (fun msg result => msg.set result.1 result.2) message

/-- The function `Decrypt` on a slice in which every slot holds a `big.Int` of
its own (`DecryptShared` is the function on any slice of pointers, and
`Decrypt_eq_shared` relates the two), with the order in which the goroutines
complete as the input `order`: the workers run, then the blocks received are
stored by index in a slice of `len(ciphertexts)` nil blocks, which is joined.
Returns the string and the content of the ciphertext cells after the call. -/
def Decrypt (order : List Nat) (ciphertexts : List (Option Int)) (d n : Int) :
    Outcome (List Byte × List (Option Int)) :=
  match runWorkers order ciphertexts d n [] with
  | .returned (cells, messageCh) =>
    .returned (join (collect messageCh (List.replicate ciphertexts.length [])), cells)
  | .panicked => .panicked
  | .unfinished => .unfinished

/-- The goroutines of `Decrypt` on any slice of pointers: `ciphertexts[i]` is
nil (`none`) or the address in `heap` of the `big.Int` the slot points to, and
several slots may hold the same address.  Goroutine `i` is handed the pointer
of slot `i` and runs `decryptBlock` on it, which writes the power through the
pointer into `heap`, and sends `(i, block)` on the channel.  The goroutines run
one after the other, in the order `order`.  The state is the heap and the
channel. -/
def runWorkersShared : List Nat → List (Option Nat) → List Int → Int → Int →
    List (Nat × List Byte) → Outcome (List Int × List (Nat × List Byte))
  | [], _, heap, _, _, messageCh => .returned (heap, messageCh)
  | i :: rest, ciphertexts, heap, d, n, messageCh =>
    match ciphertexts[i]? with
    | some (some addr) =>
      match heap[addr]? with
      | some c =>
        match decryptBlock (some c) d n with
        | .returned (block, some z) =>
          runWorkersShared rest ciphertexts (heap.set addr z) d n (messageCh ++ [(i, block)])
        | _ => .panicked
      | none => .panicked
    | _ => .panicked

/-- The function `Decrypt` on any slice of pointers into `heap`, with the order
in which the goroutines complete as the input `order`.  Returns the string and
the heap after the call. -/
def DecryptShared (order : List Nat) (ciphertexts : List (Option Nat)) (heap : List Int)
    (d n : Int) : Outcome (List Byte × List Int) :=
  match runWorkersShared order ciphertexts heap d n [] with
  | .returned (after, messageCh) =>
    .returned (join (collect messageCh (List.replicate ciphertexts.length [])), after)
  | .panicked => .panicked
  | .unfinished => .unfinished

/-! ## Definitions used to state the claims -/

/-- Chunk number `k` of a message cut in blocks of `B` bytes: the bytes at
positions `[k*B, min((k+1)*B, len))`. -/
def chunk (B : Nat) (message : List Byte) (k : Nat) : List Byte :=
  (message.drop (k * B)).take B

/-- Number of chunks of a message of `len` bytes cut in blocks of `B` bytes:
`ceil(len / B)`. -/
def chunkCount (B len : Nat) : Nat :=
  (len + B - 1) / B

/-- Two calls of `Decrypt` in a row on the same slice `ciphertexts` (completion
orders `order1`, `order2`): the second call meets the cells as the first call
left them.  Returns the two strings. -/
def DecryptTwice (order1 order2 : List Nat) (ciphertexts : List (Option Int)) (d n : Int) :
    Outcome (List Byte × List Byte) :=
  match Decrypt order1 ciphertexts d n with
  | .returned (first, cells) =>
    match Decrypt order2 cells d n with
    | .returned (second, _) => .returned (first, second)
    | .panicked => .panicked
    | .unfinished => .unfinished
  | .panicked => .panicked
  | .unfinished => .unfinished

/-- Square-and-multiply evaluation of `b ^ e mod m`, used to check primality
certificates; `fuel` bounds the number of binary digits of `e`. -/
def powMod : Nat → Nat → Nat → Nat → Nat
  | 0, _, _, m => 1 % m
  | fuel + 1, b, e, m =>
    if e = 0 then 1 % m
    else if e % 2 = 1 then b * powMod fuel (b * b % m) (e / 2) m % m
    else powMod fuel (b * b % m) (e / 2) m

/-! ## `modInverse`: the loop invariant -/

/-- Invariant of the loop of `modInverse` started from `(a0, m0)` with
`gcd = 1`: `x1*a0 ≡ a` and `x0*a0 ≡ m` modulo `m0`, the coefficients have
opposite signs with magnitudes `v = |x1|`, `u = |x0|`, and `a*u + m*v = m0`.
With fuel above `m` the loop returns an `x` with `|x| < m0` and
`x*a0 ≡ 1 (mod m0)`; the divisor is never zero. -/
theorem modInverseLoop_spec (a0 m0 : Int) (hm0 : 0 < m0) :
    ∀ (fuel : Nat) (a m x0 x1 u v : Int),
      m.toNat < fuel → 0 < a → 0 ≤ m → Int.gcd a m = 1 →
      0 ≤ u → 0 ≤ v → ((x0 = -u ∧ x1 = v) ∨ (x0 = u ∧ x1 = -v)) →
      a * u + m * v = m0 → (v < m0 ∨ 1 < a) →
      m0 ∣ x1 * a0 - a → m0 ∣ x0 * a0 - m →
      ∃ x, modInverseLoop fuel a m x0 x1 = .returned x ∧ |x| < m0 ∧ m0 ∣ x * a0 - 1 := by
  intro fuel
  induction fuel with
  | zero => intro a m x0 x1 u v hf; omega
  | succ fuel ih =>
    intro a m x0 x1 u v hf ha hm hg hu hv hsign hsum hbound hd1 hd0
    unfold modInverseLoop
    by_cases h1 : a > 1
    · have hmne : m ≠ 0 := by
        rintro rfl
        simp at hg
        omega
      have hmpos : 0 < m := lt_of_le_of_ne hm (Ne.symm hmne)
      have hq : 0 ≤ a / m := Int.ediv_nonneg ha.le hm
      have hr0 : 0 ≤ a % m := Int.emod_nonneg a hmne
      have hrlt : a % m < m := Int.emod_lt_of_pos a hmpos
      have hdiv : m * (a / m) + a % m = a := Int.ediv_add_emod a m
      simp only [h1, hmne, if_true, if_false]
      apply ih m (a % m) (x1 - a / m * x0) x0 (v + a / m * u) u
      · omega
      · exact hmpos
      · exact hr0
      · have hc : IsCoprime a m := Int.isCoprime_iff_gcd_eq_one.mpr hg
        rw [← hdiv] at hc
        have hc2 : IsCoprime (a % m + m * (a / m)) m := by rwa [add_comm] at hc
        have hc3 : IsCoprime (a % m) m := IsCoprime.of_add_mul_left_left hc2
        exact Int.isCoprime_iff_gcd_eq_one.mp hc3.symm
      · positivity
      · exact hu
      · rcases hsign with ⟨h0, h1⟩ | ⟨h0, h1⟩
        · right; subst h0 h1; constructor <;> ring
        · left; subst h0 h1; constructor <;> ring
      · calc m * (v + a / m * u) + a % m * u = (m * (a / m) + a % m) * u + m * v := by ring
          _ = m0 := by rw [hdiv, hsum]
      · left
        have h2 : 2 * u ≤ a * u := by nlinarith
        have h3 : 0 ≤ m * v := by positivity
        omega
      · exact hd0
      · have : (x1 - a / m * x0) * a0 - a % m = (x1 * a0 - a) - (a / m) * (x0 * a0 - m) := by
          have : a % m = a - m * (a / m) := by omega
          rw [this]; ring
        rw [this]
        exact dvd_sub hd1 (Dvd.dvd.mul_left hd0 _)
    · have ha1 : a = 1 := by omega
      simp only [h1, if_false]
      refine ⟨x1, rfl, ?_, ?_⟩
      · have hvlt : v < m0 := by
          rcases hbound with h | h
          · exact h
          · omega
        rcases hsign with ⟨_, h⟩ | ⟨_, h⟩ <;> subst h
        · rw [abs_of_nonneg hv]; exact hvlt
        · rw [abs_neg, abs_of_nonneg hv]; exact hvlt
      · rw [ha1] at hd1; exact hd1

/-- With `gcd(a, m) = 1`, `a ≥ 1`, `m ≥ 1` and not `a = m = 1`, `modInverse`
returns the inverse of `a` modulo `m`, normalised to `[0, m)`. -/
theorem modInverse_spec (a m : Int) (ha : 1 ≤ a) (hm : 1 ≤ m) (ham : 1 < m ∨ 1 < a)
    (hg : Int.gcd a m = 1) :
    ∃ x, modInverse a m = .returned x ∧ 0 ≤ x ∧ x < m ∧ (a * x) % m = 1 % m := by
  have hm0 : 0 < m := by omega
  obtain ⟨x1, hx, habs, hdvd⟩ :=
    modInverseLoop_spec a m hm0 (m.natAbs + 2) a m 0 1 0 1 (by omega) (by omega) (by omega) hg
      (le_refl 0) (by norm_num) (Or.inl ⟨by ring, rfl⟩) (by ring) (by omega)
      (by simp) (by simp)
  have hlo : -m < x1 := (abs_lt.mp habs).1
  have hhi : x1 < m := (abs_lt.mp habs).2
  unfold modInverse
  rw [hx]
  refine ⟨_, rfl, ?_, ?_, ?_⟩
  · split <;> omega
  · split <;> omega
  · apply Int.emod_eq_emod_iff_emod_sub_eq_zero.mpr
    apply Int.emod_eq_zero_of_dvd
    split
    · have : a * (x1 + m) - 1 = (x1 * a - 1) + m * a := by ring
      rw [this]
      exact dvd_add hdvd (dvd_mul_right m a)
    · have : a * x1 - 1 = x1 * a - 1 := by ring
      rw [this]; exact hdvd

/-- The loop of `modInverse` never uses more than `|m| + 1` units of fuel. -/
theorem modInverseLoop_finishes :
    ∀ (fuel : Nat) (a m x0 x1 : Int), m.natAbs + 1 ≤ fuel →
      modInverseLoop fuel a m x0 x1 ≠ .unfinished := by
  intro fuel
  induction fuel with
  | zero => intro a m x0 x1 hf; omega
  | succ fuel ih =>
    intro a m x0 x1 hf
    unfold modInverseLoop
    by_cases h1 : a > 1
    · by_cases hm : m = 0
      · simp [h1, hm]
      · simp only [h1, hm, if_true, if_false]
        apply ih
        have hr0 : 0 ≤ a % m := Int.emod_nonneg a hm
        have hrlt : a % m < |m| := Int.emod_lt a hm
        have : |m| = (m.natAbs : Int) := Int.abs_eq_natAbs m
        omega
    · simp [h1]

/-! ## Bytes -/

theorem beValue_append (l : List Byte) (b : Byte) :
    beValue (l ++ [b]) = beValue l * 256 + b.val := by
  simp [beValue, List.foldl_append]

theorem beValue_eq_zero (l : List Byte) : beValue l = 0 ↔ ∀ b ∈ l, b = 0 := by
  induction l using List.reverseRecOn with
  | nil => simp [beValue]
  | append_singleton l b ih =>
    rw [beValue_append]
    constructor
    · intro h
      have h1 : beValue l = 0 := by omega
      have h2 : b.val = 0 := by omega
      intro c hc
      rcases List.mem_append.mp hc with hc | hc
      · exact ih.mp h1 c hc
      · simp at hc; subst hc; exact Fin.ext h2
    · intro h
      have h1 : beValue l = 0 := ih.mpr (fun c hc => h c (List.mem_append_left _ hc))
      have h2 : b = 0 := h b (by simp)
      simp [h1, h2]

theorem dropWhile_zero_append (l : List Byte) (b : Byte)
    (h : beValue (l ++ [b]) ≠ 0) :
    (l ++ [b]).dropWhile (fun c => decide (c = 0)) =
      l.dropWhile (fun c => decide (c = 0)) ++ [b] := by
  induction l with
  | nil =>
    have hb : b ≠ 0 := by
      rintro rfl
      exact h (by simp [beValue])
    simp [List.dropWhile, hb]
  | cons c l ih =>
    by_cases hc : c = 0
    · subst hc
      have h2 : beValue (l ++ [b]) ≠ 0 := by
        intro h3
        apply h
        rw [beValue_eq_zero] at h3 ⊢
        intro x hx
        simp only [List.cons_append, List.mem_cons] at hx
        rcases hx with hx | hx
        · exact hx
        · exact h3 x hx
      simp only [List.cons_append, List.dropWhile_cons, decide_True, if_true]
      exact ih h2
    · simp [List.dropWhile, hc]

theorem natBytes_beValue (l : List Byte) :
    ∀ (fuel : Nat) (acc : List Byte), beValue l ≤ fuel →
      natBytes fuel (beValue l) acc = l.dropWhile (fun c => decide (c = 0)) ++ acc := by
  induction l using List.reverseRecOn with
  | nil =>
    intro fuel acc _
    cases fuel <;> simp [natBytes, beValue]
  | append_singleton l b ih =>
    intro fuel acc hf
    by_cases hz : beValue (l ++ [b]) = 0
    · have hall := (beValue_eq_zero _).mp hz
      have hd : (l ++ [b]).dropWhile (fun c => decide (c = 0)) = [] := by
        rw [List.dropWhile_eq_nil_iff]
        intro x hx
        simp [hall x hx]
      rw [hz, hd]
      cases fuel <;> simp [natBytes]
    · rw [dropWhile_zero_append l b hz]
      rw [beValue_append] at hz hf ⊢
      obtain ⟨fuel, rfl⟩ : ∃ k, fuel = k + 1 := ⟨fuel - 1, by omega⟩
      have hb : b.val < 256 := b.isLt
      have hdiv : (beValue l * 256 + b.val) / 256 = beValue l := by omega
      have hmod : (⟨(beValue l * 256 + b.val) % 256, Nat.mod_lt _ (by decide)⟩ : Byte) = b := by
        apply Fin.ext
        show (beValue l * 256 + b.val) % 256 = b.val
        omega
      simp only [natBytes, hz, if_false, hdiv, hmod]
      rw [ih fuel (b :: acc) (by omega)]
      simp

/-- `Bytes` after `SetBytes` gives the bytes back without their leading zero
bytes. -/
theorem bigBytes_bigSetBytes (l : List Byte) :
    bigBytes (bigSetBytes l) = l.dropWhile (fun c => decide (c = 0)) := by
  unfold bigBytes bigSetBytes
  simp only [Int.ofNat_eq_coe, Int.natAbs_ofNat]
  rw [natBytes_beValue l _ [] (le_refl _)]
  simp

/-! ## The chunking loop of `Encrypt` -/

theorem lt_chunkCount_iff (B len k : Nat) (hB : 1 ≤ B) :
    k < chunkCount B len ↔ k * B < len := by
  unfold chunkCount
  rw [Nat.lt_iff_add_one_le, Nat.le_div_iff_mul_le (by omega)]
  have : (k + 1) * B = k * B + B := by ring
  omega

theorem sliceBytes_chunk (B : Nat) (message : List Byte) (k : Nat)
    (hk : k * B < message.length) :
    sliceBytes message ((k * B : Nat) : Int)
      (if ((k * B : Nat) : Int) + (B : Int) > (message.length : Int) then (message.length : Int)
        else ((k * B : Nat) : Int) + (B : Int)) = some (chunk B message k) := by
  unfold sliceBytes chunk
  split
  · rename_i hgt
    have h1 : (0 : Int) ≤ ((k * B : Nat) : Int) ∧ ((k * B : Nat) : Int) ≤ (message.length : Int) ∧
        (message.length : Int) ≤ (message.length : Int) := by omega
    rw [if_pos h1]
    congr 1
    have hlen : (message.drop (k * B)).length = message.length - k * B := List.length_drop _ _
    simp only [Int.toNat_ofNat]
    rw [List.take_of_length_le (by omega), List.take_of_length_le (by omega)]
  · rename_i hle
    have h1 : (0 : Int) ≤ ((k * B : Nat) : Int) ∧
        ((k * B : Nat) : Int) ≤ ((k * B : Nat) : Int) + (B : Int) ∧
        ((k * B : Nat) : Int) + (B : Int) ≤ (message.length : Int) := by omega
    rw [if_pos h1]
    congr 2
    omega

/-- With a block size `B ≥ 1`, the loop of `Encrypt` entered at `i = k*B` with
`j` chunks left returns the ciphertexts so far followed by the encryption of
chunks `k .. k+j-1`. -/
theorem EncryptLoop_chunks (B : Nat) (hB : 1 ≤ B) (message : List Byte) (e n : Int) :
    ∀ (j k fuel : Nat) (acc : List (Option Int)), j < fuel →
      chunkCount B message.length = k + j →
      EncryptLoop fuel message e n (B : Int) ((k * B : Nat) : Int) acc =
        .returned (acc ++ (List.range' k j).map (fun t => encryptBlock (chunk B message t) e n)) := by
  intro j
  induction j with
  | zero =>
    intro k fuel acc hf hc
    obtain ⟨fuel, rfl⟩ : ∃ f, fuel = f + 1 := ⟨fuel - 1, by omega⟩
    have hnot : ¬ k * B < message.length := by
      rw [← lt_chunkCount_iff B _ k hB]; omega
    have hnot2 : ¬ ((k * B : Nat) : Int) < (message.length : Int) := by omega
    unfold EncryptLoop
    rw [if_neg hnot2]
    simp
  | succ j ih =>
    intro k fuel acc hf hc
    obtain ⟨fuel, rfl⟩ : ∃ f, fuel = f + 1 := ⟨fuel - 1, by omega⟩
    have hlt : k * B < message.length := by
      rw [← lt_chunkCount_iff B _ k hB]; omega
    have hlt2 : ((k * B : Nat) : Int) < (message.length : Int) := by omega
    unfold EncryptLoop
    rw [if_pos hlt2]
    simp only []
    rw [sliceBytes_chunk B message k hlt]
    have hnext : ((k * B : Nat) : Int) + (B : Int) = (((k + 1) * B : Nat) : Int) := by
      push_cast; ring
    simp only [hnext]
    rw [ih (k + 1) fuel _ (by omega) (by omega)]
    simp [List.range'_succ]

theorem chunkCount_le (B len : Nat) (hB : 1 ≤ B) : chunkCount B len ≤ len := by
  by_contra h
  have h1 : len < chunkCount B len := by omega
  have h2 := (lt_chunkCount_iff B len len hB).mp h1
  have h3 : len * 1 ≤ len * B := Nat.mul_le_mul_left len hB
  omega

/-- With a block size `B ≥ 1`, `Encrypt` returns the encryptions of chunks
`0 .. chunkCount-1` in order, and `B`. -/
theorem Encrypt_eq (B : Nat) (hB : 1 ≤ B) (message : List Byte) (e n : Int)
    (hbs : blockSizeOf n = (B : Int)) :
    Encrypt message e n =
      .returned ((List.range (chunkCount B message.length)).map
        (fun k => encryptBlock (chunk B message k) e n), (B : Int)) := by
  unfold Encrypt
  rw [hbs]
  have h := EncryptLoop_chunks B hB message e n (chunkCount B message.length) 0
    (message.length + 1) [] (by have := chunkCount_le B message.length hB; omega) (by omega)
  simp only [Nat.zero_mul, Nat.cast_zero, List.nil_append] at h
  rw [h, List.range_eq_range']

theorem flatten_chunks_aux (B : Nat) (message : List Byte) :
    ∀ (j k : Nat), ((List.range' k j).map (chunk B message)).flatten =
      (message.drop (k * B)).take (j * B) := by
  intro j
  induction j with
  | zero => intro k; simp
  | succ j ih =>
    intro k
    rw [List.range'_succ, List.map_cons, List.flatten_cons, ih (k + 1)]
    unfold chunk
    have h1 : (j + 1) * B = B + j * B := by ring
    have h2 : (k + 1) * B = k * B + B := by ring
    rw [h1, List.take_add, List.drop_drop, h2]

/-- The chunks of a message, concatenated in order, are the message. -/
theorem flatten_chunks (B : Nat) (hB : 1 ≤ B) (message : List Byte) :
    ((List.range (chunkCount B message.length)).map (chunk B message)).flatten = message := by
  rw [List.range_eq_range', flatten_chunks_aux]
  simp only [Nat.zero_mul, List.drop_zero]
  apply List.take_of_length_le
  by_contra h
  have h1 : chunkCount B message.length * B < message.length := by omega
  have := (lt_chunkCount_iff B message.length (chunkCount B message.length) hB).mpr h1
  omega

theorem chunk_length_le (B : Nat) (message : List Byte) (k : Nat) :
    (chunk B message k).length ≤ B := by
  unfold chunk
  simp [List.length_take]

theorem natBitLen_zero (fuel : Nat) : natBitLen fuel 0 = 0 := by
  cases fuel <;> simp [natBitLen]

theorem natBitLen_eq (k : Nat) :
    ∀ (fuel v : Nat), v ≤ fuel → 2 ^ k ≤ v → v < 2 ^ (k + 1) → natBitLen fuel v = k + 1 := by
  induction k with
  | zero =>
    intro fuel v hf h1 h2
    have hv : v = 1 := by simp at h1 h2; omega
    subst hv
    obtain ⟨fuel, rfl⟩ : ∃ f, fuel = f + 1 := ⟨fuel - 1, by omega⟩
    simp [natBitLen, natBitLen_zero]
  | succ k ih =>
    intro fuel v hf h1 h2
    have hpos : 0 < 2 ^ k := Nat.pow_pos (by decide)
    rw [pow_succ] at h1 h2
    obtain ⟨fuel, rfl⟩ : ∃ f, fuel = f + 1 := ⟨fuel - 1, by omega⟩
    have hv0 : v ≠ 0 := by omega
    have hrec := ih fuel (v / 2) (by omega) (by omega) (by rw [pow_succ]; omega)
    simp [natBitLen, hv0, hrec]

/-- `BitLen` is `k + 1` exactly on the absolute values in `[2^k, 2^(k+1))`. -/
theorem bigBitLen_of_bounds (x : Int) (k : Nat) (h1 : 2 ^ k ≤ x.natAbs)
    (h2 : x.natAbs < 2 ^ (k + 1)) : bigBitLen x = k + 1 :=
  natBitLen_eq k _ _ (le_refl _) h1 h2

theorem bigBitLen_two_pow (k : Nat) : bigBitLen ((2 : Int) ^ k) = k + 1 := by
  apply bigBitLen_of_bounds
  · simp [Int.natAbs_pow]
  · simp [Int.natAbs_pow, pow_succ]

theorem bigExp_of_nonneg_ne (x y m : Int) (hy : 0 ≤ y) (hm : m ≠ 0) :
    bigExp x y m = some (x ^ y.toNat % m) := by
  unfold bigExp
  have h1 : ¬ y < 0 := by omega
  simp only [h1, hm, if_false]
  rw [Int.natCast_natAbs, Int.emod_abs]

/-- The number of chunks is the ceiling of `len / B`. -/
theorem chunkCount_eq_ceil (B len : Nat) (hB : 1 ≤ B) :
    chunkCount B len = ⌈(len : ℚ) / (B : ℚ)⌉₊ := by
  have hBq : (0 : ℚ) < (B : ℚ) := by exact_mod_cast hB
  apply le_antisymm
  · by_cases h0 : chunkCount B len = 0
    · omega
    · have h1 : chunkCount B len - 1 < chunkCount B len := by omega
      have h2 := (lt_chunkCount_iff B len _ hB).mp h1
      have h3 : chunkCount B len - 1 < ⌈(len : ℚ) / (B : ℚ)⌉₊ := by
        rw [Nat.lt_ceil, lt_div_iff₀ hBq]
        exact_mod_cast h2
      omega
  · rw [Nat.ceil_le, div_le_iff₀ hBq]
    have h1 : ¬ chunkCount B len < chunkCount B len := lt_irrefl _
    rw [lt_chunkCount_iff B len _ hB] at h1
    have h2 : len ≤ chunkCount B len * B := by omega
    exact_mod_cast h2

theorem chunk_eq_slice (B : Nat) (message : List Byte) (k : Nat) :
    chunk B message k =
      (message.drop (k * B)).take (min ((k + 1) * B) message.length - k * B) := by
  unfold chunk
  have h2 : (k + 1) * B = k * B + B := by ring
  by_cases h : (k + 1) * B ≤ message.length
  · rw [Nat.min_eq_left h]
    congr 1
    omega
  · rw [Nat.min_eq_right (by omega)]
    have hlen : (message.drop (k * B)).length = message.length - k * B := List.length_drop _ _
    rw [List.take_of_length_le (by omega), List.take_of_length_le (by omega)]

theorem chunk_length (B : Nat) (message : List Byte) (k : Nat) :
    (chunk B message k).length = min B (message.length - k * B) := by
  unfold chunk
  simp [List.length_take, List.length_drop]

/-- A run of the loop of `Encrypt` that ended keeps its result with more fuel. -/
theorem EncryptLoop_mono (message : List Byte) (e n bs : Int) :
    ∀ (fuel : Nat) (i : Int) (acc : List (Option Int)),
      EncryptLoop fuel message e n bs i acc ≠ .unfinished →
      ∀ extra : Nat, EncryptLoop (fuel + extra) message e n bs i acc =
        EncryptLoop fuel message e n bs i acc := by
  intro fuel
  induction fuel with
  | zero => intro i acc h; simp [EncryptLoop] at h
  | succ fuel ih =>
    intro i acc h extra
    have hf : fuel + 1 + extra = (fuel + extra) + 1 := by omega
    rw [hf]
    unfold EncryptLoop at h ⊢
    by_cases hi : i < (message.length : Int)
    · rw [if_pos hi] at h
      rw [if_pos hi, if_pos hi]
      simp only [] at h ⊢
      cases hs : sliceBytes message i
          (if i + bs > (message.length : Int) then (message.length : Int) else i + bs) with
      | none => rfl
      | some block =>
        rw [hs] at h
        exact ih _ _ h extra
    · rw [if_neg hi]
      rw [if_neg hi]

/-- With a negative block size and a non-empty message the first slice
expression is out of range. -/
theorem EncryptLoop_neg_panics (message : List Byte) (e n bs : Int) (hbs : bs < 0)
    (hlen : 0 < message.length) (fuel : Nat) :
    EncryptLoop (fuel + 1) message e n bs 0 [] = .panicked := by
  unfold EncryptLoop
  have h1 : (0 : Int) < (message.length : Int) := by omega
  have h2 : ¬ (0 + bs > (message.length : Int)) := by omega
  rw [if_pos h1]
  simp only [if_neg h2]
  have h3 : sliceBytes message 0 (0 + bs) = none := by
    unfold sliceBytes
    rw [if_neg (by omega)]
  rw [h3]

/-- With block size 0 and a non-empty message the loop stays at `i = 0` and
is never left. -/
theorem EncryptLoop_zero_unfinished (message : List Byte) (e n : Int)
    (hlen : 0 < message.length) :
    ∀ (fuel : Nat) (acc : List (Option Int)),
      EncryptLoop fuel message e n 0 0 acc = .unfinished := by
  intro fuel
  induction fuel with
  | zero => intro acc; rfl
  | succ fuel ih =>
    intro acc
    unfold EncryptLoop
    have h1 : (0 : Int) < (message.length : Int) := by omega
    have h2 : ¬ ((0 : Int) + 0 > (message.length : Int)) := by omega
    rw [if_pos h1]
    simp only [if_neg h2]
    have h3 : sliceBytes message 0 (0 + 0) = some [] := by
      unfold sliceBytes
      rw [if_pos (by omega)]
      simp
    rw [h3]
    simp only [add_zero]
    exact ih _

/-- The fuel `len(message) + 1` given by `Encrypt` is enough for every run of
the loop that ends at all. -/
theorem EncryptLoop_fuel (message : List Byte) (e n bs : Int) (fuel : Nat)
    (h : EncryptLoop fuel message e n bs 0 [] ≠ .unfinished) :
    EncryptLoop (message.length + 1) message e n bs 0 [] =
      EncryptLoop fuel message e n bs 0 [] := by
  by_cases hlen : message.length = 0
  · have hm : message = [] := List.length_eq_zero.mp hlen
    subst hm
    cases fuel with
    | zero => simp [EncryptLoop] at h
    | succ fuel => simp [EncryptLoop]
  · have hpos : 0 < message.length := by omega
    rcases lt_trichotomy bs 0 with hneg | hzero | hposbs
    · cases fuel with
      | zero => simp [EncryptLoop] at h
      | succ fuel =>
        rw [EncryptLoop_neg_panics message e n bs hneg hpos,
          EncryptLoop_neg_panics message e n bs hneg hpos]
    · subst hzero
      exact absurd (EncryptLoop_zero_unfinished message e n hpos fuel []) h
    · obtain ⟨B, rfl⟩ : ∃ B : Nat, bs = (B : Int) := ⟨bs.toNat, by omega⟩
      have hB : 1 ≤ B := by omega
      have hfull := EncryptLoop_chunks B hB message e n (chunkCount B message.length) 0
        (message.length + 1) [] (by have := chunkCount_le B message.length hB; omega) (by omega)
      simp only [Nat.zero_mul, Nat.cast_zero] at hfull
      have h1 := EncryptLoop_mono message e n (B : Int) (message.length + 1) 0 []
        (by rw [hfull]; simp) fuel
      have h2 := EncryptLoop_mono message e n (B : Int) fuel 0 [] h (message.length + 1)
      rw [← h1, ← h2, Nat.add_comm]

/-! ## `Decrypt`: reassembly by index -/

theorem join_eq_flatten_aux (parts : List (List Byte)) (init : List Byte) :
    parts.foldl (fun result part => result ++ part) init = init ++ parts.flatten := by
  induction parts generalizing init with
  | nil => simp
  | cons p ps ih => simp [List.foldl_cons, ih, List.append_assoc]

theorem join_eq_flatten (parts : List (List Byte)) : join parts = parts.flatten := by
  unfold join
  rw [join_eq_flatten_aux]
  simp

theorem foldl_set_getElem? {α : Type} (h : Nat → α) :
    ∀ (order : List Nat) (l : List α) (j : Nat), j < l.length →
      (order.foldl (fun m i => m.set i (h i)) l)[j]? =
        if j ∈ order then some (h j) else l[j]? := by
  intro order
  induction order with
  | nil => intro l j _; simp
  | cons i rest ih =>
    intro l j hj
    rw [List.foldl_cons, ih (l.set i (h i)) j (by simpa using hj)]
    by_cases hjr : j ∈ rest
    · simp [hjr]
    · by_cases hji : j = i
      · subst hji
        simp [hjr, hj]
      · have hij : i ≠ j := fun h => hji h.symm
        simp [hjr, hji, List.getElem?_set_ne hij]

theorem foldl_set_length {α : Type} (h : Nat → α) :
    ∀ (order : List Nat) (l : List α),
      (order.foldl (fun m i => m.set i (h i)) l).length = l.length := by
  intro order
  induction order with
  | nil => intro l; rfl
  | cons i rest ih => intro l; rw [List.foldl_cons, ih]; simp

/-- Storing `h i` at index `i` for the indices `i` taken in any order that is a
permutation of `0 .. len-1` leaves `h 0, .., h (len-1)`. -/
theorem foldl_set_perm {α : Type} (h : Nat → α) (order : List Nat) (l : List α)
    (hperm : order.Perm (List.range l.length)) :
    order.foldl (fun m i => m.set i (h i)) l = (List.range l.length).map h := by
  apply List.ext_getElem?
  intro j
  by_cases hj : j < l.length
  · rw [foldl_set_getElem? h order l j hj]
    have hmem : j ∈ order := hperm.mem_iff.mpr (List.mem_range.mpr hj)
    simp [hmem, hj]
  · have h1 : (order.foldl (fun m i => m.set i (h i)) l).length ≤ j := by
      rw [foldl_set_length]; omega
    rw [List.getElem?_eq_none h1, List.getElem?_eq_none (by simpa using hj)]

/-- The goroutines run in an order without repetition, each on a cell that is
still as it was at the call: the cells end as their decrypted values and the
channel holds the pairs `(i, block i)` in completion order. -/
theorem runWorkers_spec (d n : Int) (blk : Nat → List Byte) (cell : Nat → Option Int) :
    ∀ (order : List Nat) (cells : List (Option Int)) (messageCh : List (Nat × List Byte)),
      order.Nodup →
      (∀ i ∈ order, ∃ c, cells[i]? = some c ∧ decryptBlock c d n = .returned (blk i, cell i)) →
      runWorkers order cells d n messageCh =
        .returned (order.foldl (fun m i => m.set i (cell i)) cells,
          messageCh ++ order.map (fun i => (i, blk i))) := by
  intro order
  induction order with
  | nil => intro cells messageCh _ _; simp [runWorkers]
  | cons i rest ih =>
    intro cells messageCh hnd hall
    obtain ⟨c, hc, hdec⟩ := hall i (List.mem_cons_self _ _)
    have hnd2 := List.nodup_cons.mp hnd
    unfold runWorkers
    simp only [hc, hdec]
    rw [ih (cells.set i (cell i)) _ hnd2.2]
    · simp
    · intro j hj
      obtain ⟨c2, hc2, hdec2⟩ := hall j (List.mem_cons_of_mem _ hj)
      refine ⟨c2, ?_, hdec2⟩
      have hij : i ≠ j := by
        rintro rfl
        exact hnd2.1 hj
      rw [List.getElem?_set_ne hij]
      exact hc2

theorem collect_map (blk : Nat → List Byte) (order : List Nat) (message : List (List Byte)) :
    collect (order.map (fun i => (i, blk i))) message =
      order.foldl (fun m i => m.set i (blk i)) message := by
  unfold collect
  rw [List.foldl_map]

/-- When `decryptBlock` returns `(F c, G c)` on every element `c`, `Decrypt`
returns the blocks `F c` concatenated in index order and leaves the cells
`G c`, for every completion order. -/
theorem Decrypt_of_blocks (order : List Nat) (cs : List (Option Int)) (d n : Int)
    (F : Option Int → List Byte) (G : Option Int → Option Int)
    (hperm : order.Perm (List.range cs.length))
    (hall : ∀ c ∈ cs, decryptBlock c d n = .returned (F c, G c)) :
    Decrypt order cs d n = .returned ((cs.map F).flatten, cs.map G) := by
  have hnd : order.Nodup := hperm.symm.nodup_iff.mp (List.nodup_range _)
  have hrun := runWorkers_spec d n (fun i => F (cs.getD i none)) (fun i => G (cs.getD i none))
    order cs [] hnd (by
      intro i hi
      have hlt : i < cs.length := List.mem_range.mp (hperm.mem_iff.mp hi)
      refine ⟨cs[i], List.getElem?_eq_getElem hlt, ?_⟩
      have : cs.getD i none = cs[i] := by simp [List.getD, List.getElem?_eq_getElem hlt]
      show decryptBlock cs[i] d n = .returned (F (cs.getD i none), G (cs.getD i none))
      rw [this]
      exact hall _ (List.getElem_mem hlt))
  unfold Decrypt
  rw [hrun]
  simp only [List.nil_append]
  rw [collect_map, join_eq_flatten]
  have hlen : (List.replicate cs.length ([] : List Byte)).length = cs.length := by simp
  rw [foldl_set_perm _ order _ (by rw [hlen]; exact hperm), hlen,
    foldl_set_perm _ order cs hperm]
  have hF : (List.range cs.length).map (fun i => F (cs.getD i none)) = cs.map F := by
    apply List.ext_getElem
    · simp
    · intro i h1 h2
      simp at h1
      simp [List.getD, List.getElem?_eq_getElem h1]
  have hG : (List.range cs.length).map (fun i => G (cs.getD i none)) = cs.map G := by
    apply List.ext_getElem
    · simp
    · intro i h1 h2
      simp at h1
      simp [List.getD, List.getElem?_eq_getElem h1]
  rw [hF, hG]

/-! ## Modular exponentiation and the RSA identity -/

theorem pow_modEq_self_of_prime (p k v : Nat) (hp : p.Prime) :
    v ^ (1 + (p - 1) * k) ≡ v [MOD p] := by
  by_cases hdiv : p ∣ v
  · have h0 : v ≡ 0 [MOD p] := (Nat.modEq_zero_iff_dvd).mpr hdiv
    have h1 : v ^ (1 + (p - 1) * k) ≡ 0 [MOD p] := by
      apply (Nat.modEq_zero_iff_dvd).mpr
      exact dvd_trans hdiv (dvd_pow_self v (by omega))
    exact h1.trans h0.symm
  · have hcop : Nat.Coprime v p := ((Nat.Prime.coprime_iff_not_dvd hp).mpr hdiv).symm
    have hf : v ^ (p - 1) ≡ 1 [MOD p] := by
      have := Nat.ModEq.pow_totient hcop
      rwa [Nat.totient_prime hp] at this
    have h2 : (v ^ (p - 1)) ^ k ≡ 1 [MOD p] := by
      have := hf.pow k
      rwa [one_pow] at this
    have h3 : v ^ (1 + (p - 1) * k) = v * (v ^ (p - 1)) ^ k := by
      rw [pow_add, pow_one, pow_mul]
    rw [h3]
    have := Nat.ModEq.mul_left v h2
    rwa [mul_one] at this

theorem rsa_pow_modEq (p q e d v : Nat) (hp : p.Prime) (hq : q.Prime) (hpq : p ≠ q)
    (hed : (e * d) % ((p - 1) * (q - 1)) = 1) :
    v ^ (e * d) ≡ v [MOD p * q] := by
  have hdecomp : e * d = 1 + (p - 1) * (q - 1) * ((e * d) / ((p - 1) * (q - 1))) := by
    have := Nat.div_add_mod (e * d) ((p - 1) * (q - 1))
    omega
  have hcop : Nat.Coprime p q := (Nat.coprime_primes hp hq).mpr hpq
  apply (Nat.modEq_and_modEq_iff_modEq_mul hcop).mp
  constructor
  · rw [hdecomp, mul_assoc]
    exact pow_modEq_self_of_prime p _ v hp
  · rw [hdecomp, mul_comm (p - 1) (q - 1), mul_assoc]
    exact pow_modEq_self_of_prime q _ v hq

/-- The RSA identity: for distinct primes `p`, `q` and `e*d ≡ 1` modulo
`(p-1)*(q-1)`, decrypting the encryption of `v < p*q` gives `v`. -/
theorem rsa_roundtrip_nat (p q e d v : Nat) (hp : p.Prime) (hq : q.Prime) (hpq : p ≠ q)
    (hed : (e * d) % ((p - 1) * (q - 1)) = 1) (hv : v < p * q) :
    (v ^ e % (p * q)) ^ d % (p * q) = v := by
  rw [← Nat.pow_mod, ← pow_mul]
  have := rsa_pow_modEq p q e d v hp hq hpq hed
  unfold Nat.ModEq at this
  rw [this, Nat.mod_eq_of_lt hv]

theorem bigExp_of_nonneg (x y m : Int) (hy : 0 ≤ y) (hm : 0 < m) :
    bigExp x y m = some (x ^ y.toNat % m) := by
  unfold bigExp
  have h1 : ¬ y < 0 := by omega
  have h2 : m ≠ 0 := by omega
  have h3 : (m.natAbs : Int) = m := by omega
  simp only [h1, h2, if_false, h3]

theorem bigExp_natCast (v e n : Nat) (hn : 0 < n) :
    bigExp (v : Int) (e : Int) (n : Int) = some ((v ^ e % n : Nat) : Int) := by
  rw [bigExp_of_nonneg _ _ _ (by omega) (by omega)]
  simp

theorem decryptBlock_some (z d n : Int) (hd : 0 ≤ d) (hn : 0 < n) :
    decryptBlock (some z) d n =
      .returned (bigBytes (z ^ d.toNat % n), some (z ^ d.toNat % n)) := by
  unfold decryptBlock
  simp only [bigExp_of_nonneg z d n hd hn]

/-- For `d ≥ 0` and `n > 0`, `Decrypt` returns the bytes of `c^d mod n` for the
elements `c` in index order and leaves `c^d mod n` in the cells, for every
completion order. -/
theorem Decrypt_ints (cs : List Int) (d n : Int) (hd : 0 ≤ d) (hn : 0 < n)
    (order : List Nat) (hperm : order.Perm (List.range cs.length)) :
    Decrypt order (cs.map some) d n =
      .returned ((cs.map (fun c => bigBytes (c ^ d.toNat % n))).flatten,
        cs.map (fun c => some (c ^ d.toNat % n))) := by
  have h := Decrypt_of_blocks order (cs.map some) d n
    (fun c => match c with
      | some z => bigBytes (z ^ d.toNat % n)
      | none => [])
    (fun c => match c with
      | some z => some (z ^ d.toNat % n)
      | none => none)
    (by simpa using hperm)
    (by
      intro c hc
      obtain ⟨z, _, rfl⟩ := List.mem_map.mp hc
      exact decryptBlock_some z d n hd hn)
  rw [h, List.map_map, List.map_map]
  rfl

/-- The square-and-multiply evaluation computes `b ^ e % m`. -/
theorem powMod_eq (m : Nat) :
    ∀ (fuel b e : Nat), e < 2 ^ fuel → powMod fuel b e m = b ^ e % m := by
  intro fuel
  induction fuel with
  | zero =>
    intro b e he
    have : e = 0 := by simpa using he
    subst this
    simp [powMod]
  | succ fuel ih =>
    intro b e he
    unfold powMod
    by_cases h0 : e = 0
    · subst h0; simp
    · have hlt : e / 2 < 2 ^ fuel := by
        rw [pow_succ] at he
        omega
      have hsq : (b * b % m) ^ (e / 2) % m = (b * b) ^ (e / 2) % m := by
        rw [← Nat.pow_mod]
      simp only [h0, if_false]
      rw [ih _ _ hlt, hsq]
      by_cases h1 : e % 2 = 1
      · simp only [h1, if_true]
        have he2 : e = 1 + 2 * (e / 2) := by omega
        conv_rhs => rw [he2, pow_add, pow_one, pow_mul]
        rw [Nat.mul_mod, Nat.mod_mod, ← Nat.mul_mod, ← pow_two]
      · simp only [h1, if_false]
        have he2 : e = 2 * (e / 2) := by omega
        conv_rhs => rw [he2, pow_mul]
        rw [← pow_two]

theorem zmod_pow_ne_one (p a k : Nat) (hp : 1 < p) (h : powMod 64 a k p ≠ 1) (hk : k < 2 ^ 64) :
    (a : ZMod p) ^ k ≠ 1 := by
  intro hc
  apply h
  rw [powMod_eq p 64 a k hk]
  have h1 : ((a ^ k : Nat) : ZMod p) = ((1 : Nat) : ZMod p) := by
    push_cast; exact hc
  have h2 := (ZMod.natCast_eq_natCast_iff' _ _ _).mp h1
  rw [h2, Nat.mod_eq_of_lt hp]

theorem zmod_pow_eq_one (p a k : Nat) (h : powMod 64 a k p = 1) (hk : k < 2 ^ 64) :
    (a : ZMod p) ^ k = 1 := by
  rw [powMod_eq p 64 a k hk] at h
  have h1 : ((a ^ k % p : Nat) : ZMod p) = ((1 : Nat) : ZMod p) := by rw [h]
  rw [ZMod.natCast_mod] at h1
  simpa using h1

/-- The 48-bit number `228881835937501 = 2^2 * 3 * 5^19 + 1` is prime (Lucas
test with base 2). -/
theorem prime_228881835937501 : Nat.Prime 228881835937501 := by
  apply lucas_primality 228881835937501 ((2 : Nat) : ZMod 228881835937501)
  · exact zmod_pow_eq_one _ 2 _ (by decide) (by decide)
  · intro r hr hdvd
    have hfac : (228881835937501 : Nat) - 1 = 2 ^ 2 * 3 * 5 ^ 19 := by norm_num
    rw [hfac] at hdvd
    have hcases : r = 2 ∨ r = 3 ∨ r = 5 := by
      rcases (Nat.Prime.dvd_mul hr).mp hdvd with h | h
      · rcases (Nat.Prime.dvd_mul hr).mp h with h | h
        · left
          exact (Nat.prime_dvd_prime_iff_eq hr Nat.prime_two).mp (hr.dvd_of_dvd_pow h)
        · right; left
          exact (Nat.prime_dvd_prime_iff_eq hr Nat.prime_three).mp h
      · right; right
        exact (Nat.prime_dvd_prime_iff_eq hr Nat.prime_five).mp (hr.dvd_of_dvd_pow h)
    rcases hcases with rfl | rfl | rfl
    · exact zmod_pow_ne_one _ 2 _ (by decide) (by decide) (by decide)
    · exact zmod_pow_ne_one _ 2 _ (by decide) (by decide) (by decide)
    · exact zmod_pow_ne_one _ 2 _ (by decide) (by decide) (by decide)

/-- The 48-bit number `262609375000001 = 2^6 * 5^12 * 7^5 + 1` is prime (Lucas
test with base 3). -/
theorem prime_262609375000001 : Nat.Prime 262609375000001 := by
  apply lucas_primality 262609375000001 ((3 : Nat) : ZMod 262609375000001)
  · exact zmod_pow_eq_one _ 3 _ (by decide) (by decide)
  · intro r hr hdvd
    have hfac : (262609375000001 : Nat) - 1 = 2 ^ 6 * 5 ^ 12 * 7 ^ 5 := by norm_num
    rw [hfac] at hdvd
    have h7 : Nat.Prime 7 := by norm_num
    have hcases : r = 2 ∨ r = 5 ∨ r = 7 := by
      rcases (Nat.Prime.dvd_mul hr).mp hdvd with h | h
      · rcases (Nat.Prime.dvd_mul hr).mp h with h | h
        · left
          exact (Nat.prime_dvd_prime_iff_eq hr Nat.prime_two).mp (hr.dvd_of_dvd_pow h)
        · right; left
          exact (Nat.prime_dvd_prime_iff_eq hr Nat.prime_five).mp (hr.dvd_of_dvd_pow h)
      · right; right
        exact (Nat.prime_dvd_prime_iff_eq hr h7).mp (hr.dvd_of_dvd_pow h)
    rcases hcases with rfl | rfl | rfl
    · exact zmod_pow_ne_one _ 3 _ (by decide) (by decide) (by decide)
    · exact zmod_pow_ne_one _ 3 _ (by decide) (by decide) (by decide)
    · exact zmod_pow_ne_one _ 3 _ (by decide) (by decide) (by decide)

theorem phi_cast (p q : Nat) (hp : 1 ≤ p) (hq : 1 ≤ q) :
    ((p : Int) - 1) * ((q : Int) - 1) = (((p - 1) * (q - 1) : Nat) : Int) := by
  push_cast [Nat.cast_sub hp, Nat.cast_sub hq]
  ring

/-- For primes `p`, `q` with `gcd(65537, (p-1)*(q-1)) = 1`, `GenerateKeys`
returns `(p*q, 65537, d)` with `0 ≤ d < phi` and `65537*d ≡ 1 (mod phi)`. -/
theorem GenerateKeys_spec (p q : Nat) (hp : p.Prime) (hq : q.Prime)
    (hg : Nat.gcd 65537 ((p - 1) * (q - 1)) = 1) :
    ∃ d : Nat, GenerateKeys (p : Int) (q : Int) = .returned ((p : Int) * (q : Int), 65537, (d : Int)) ∧
      d < (p - 1) * (q - 1) ∧ (65537 * d) % ((p - 1) * (q - 1)) = 1 % ((p - 1) * (q - 1)) := by
  have hp2 := hp.two_le
  have hq2 := hq.two_le
  have hphi : 1 ≤ (p - 1) * (q - 1) := Nat.mul_pos (by omega) (by omega)
  have hcast := phi_cast p q (by omega) (by omega)
  obtain ⟨x, hx, h0, hlt, hmod⟩ := modInverse_spec 65537 (((p - 1) * (q - 1) : Nat) : Int)
    (by norm_num) (by exact_mod_cast hphi) (Or.inr (by norm_num))
    (by
      have : Int.gcd ((65537 : Nat) : Int) (((p - 1) * (q - 1) : Nat) : Int) = 1 := by
        rw [Int.gcd_natCast_natCast]; exact hg
      simpa using this)
  refine ⟨x.toNat, ?_, ?_, ?_⟩
  · unfold GenerateKeys
    simp only [hcast, hx]
    rw [Int.toNat_of_nonneg h0]
  · have : ((x.toNat : Nat) : Int) < (((p - 1) * (q - 1) : Nat) : Int) := by
      rw [Int.toNat_of_nonneg h0]; exact hlt
    exact_mod_cast this
  · have h1 : (((65537 * x.toNat) % ((p - 1) * (q - 1)) : Nat) : Int) =
        ((1 % ((p - 1) * (q - 1)) : Nat) : Int) := by
      push_cast
      rw [Int.toNat_of_nonneg h0]
      exact_mod_cast hmod
    exact_mod_cast h1

theorem decrypt_encrypt_block (p q d : Nat) (hp : p.Prime) (hq : q.Prime) (hpq : p ≠ q)
    (hed : (65537 * d) % ((p - 1) * (q - 1)) = 1) (block : List Byte)
    (hv : beValue block < p * q) :
    ∃ z : Int, encryptBlock block 65537 ((p : Int) * (q : Int)) = some z ∧
      decryptBlock (some z) (d : Int) ((p : Int) * (q : Int)) =
        .returned (block.dropWhile (fun c => decide (c = 0)), some (bigSetBytes block)) := by
  have hn : 0 < p * q := Nat.mul_pos hp.pos hq.pos
  have hncast : (p : Int) * (q : Int) = ((p * q : Nat) : Int) := by push_cast; ring
  have henc : encryptBlock block 65537 ((p : Int) * (q : Int)) =
      some ((beValue block ^ 65537 % (p * q) : Nat) : Int) := by
    unfold encryptBlock bigSetBytes
    rw [hncast]
    exact bigExp_natCast (beValue block) 65537 (p * q) hn
  refine ⟨_, henc, ?_⟩
  rw [hncast, decryptBlock_some _ _ _ (by omega) (by exact_mod_cast hn)]
  have hpow : (((beValue block ^ 65537 % (p * q) : Nat) : Int)) ^ (d : Int).toNat %
      ((p * q : Nat) : Int) = ((beValue block : Nat) : Int) := by
    rw [Int.toNat_ofNat]
    have := rsa_roundtrip_nat p q 65537 d (beValue block) hp hq hpq hed hv
    exact_mod_cast this
  rw [hpow]
  have hb : bigBytes ((beValue block : Nat) : Int) = block.dropWhile (fun c => decide (c = 0)) :=
    bigBytes_bigSetBytes block
  rw [hb]
  rfl

theorem two_le_phi (p q : Nat) (hp : p.Prime) (hq : q.Prime) (hpq : p ≠ q) :
    2 ≤ (p - 1) * (q - 1) := by
  have hp2 := hp.two_le
  have hq2 := hq.two_le
  rcases Nat.lt_or_gt_of_ne hpq with h | h
  · have h1 : 1 ≤ p - 1 := by omega
    have h2 : 2 ≤ q - 1 := by omega
    calc 2 = 1 * 2 := by norm_num
      _ ≤ (p - 1) * (q - 1) := Nat.mul_le_mul h1 h2
  · have h1 : 2 ≤ p - 1 := by omega
    have h2 : 1 ≤ q - 1 := by omega
    calc 2 = 2 * 1 := by norm_num
      _ ≤ (p - 1) * (q - 1) := Nat.mul_le_mul h1 h2

/-- For distinct primes and a block size `B ≥ 1`, on a message whose chunks
encode values below `n`: `Decrypt` of `Encrypt` returns the chunks, each
without its leading zero bytes, concatenated in order, and leaves the plaintext
values in the ciphertext cells. -/
theorem roundtrip_blocks (p q : Nat) (hp : p.Prime) (hq : q.Prime) (hpq : p ≠ q)
    (hg : Nat.gcd 65537 ((p - 1) * (q - 1)) = 1) (B : Nat) (hB : 1 ≤ B)
    (hbs : blockSizeOf ((p : Int) * (q : Int)) = (B : Int)) (message : List Byte)
    (hlt : ∀ k, k < chunkCount B message.length → beValue (chunk B message k) < p * q)
    (order : List Nat) (hperm : order.Perm (List.range (chunkCount B message.length))) :
    ∃ (d : Nat) (cts : List (Option Int)),
      GenerateKeys (p : Int) (q : Int) = .returned ((p : Int) * (q : Int), 65537, (d : Int)) ∧
      Encrypt message 65537 ((p : Int) * (q : Int)) = .returned (cts, (B : Int)) ∧
      Decrypt order cts (d : Int) ((p : Int) * (q : Int)) =
        .returned (((List.range (chunkCount B message.length)).map
          (fun k => (chunk B message k).dropWhile (fun c => decide (c = 0)))).flatten,
          (List.range (chunkCount B message.length)).map
            (fun k => some (bigSetBytes (chunk B message k)))) := by
  obtain ⟨d, hkeys, _, hed⟩ := GenerateKeys_spec p q hp hq hg
  rw [Nat.mod_eq_of_lt (two_le_phi p q hp hq hpq)] at hed
  have henc := Encrypt_eq B hB message 65537 ((p : Int) * (q : Int)) hbs
  let F : Option Int → List Byte := fun c =>
    match c with
    | some z => bigBytes (z ^ d % ((p : Int) * (q : Int)))
    | none => []
  let G : Option Int → Option Int := fun c =>
    match c with
    | some z => some (z ^ d % ((p : Int) * (q : Int)))
    | none => none
  have hn : (0 : Int) < (p : Int) * (q : Int) := by
    have := Nat.mul_pos hp.pos hq.pos
    exact_mod_cast this
  have hdec := Decrypt_of_blocks order
    ((List.range (chunkCount B message.length)).map
      (fun k => encryptBlock (chunk B message k) 65537 ((p : Int) * (q : Int))))
    (d : Int) ((p : Int) * (q : Int)) F G (by simpa using hperm)
    (by
      intro c hc
      obtain ⟨k, hk, rfl⟩ := List.mem_map.mp hc
      obtain ⟨z, hz, _⟩ := decrypt_encrypt_block p q d hp hq hpq hed (chunk B message k)
        (hlt k (List.mem_range.mp hk))
      rw [hz, decryptBlock_some z d _ (by omega) hn]
      simp [F, G])
  refine ⟨d, _, hkeys, henc, ?_⟩
  rw [hdec]
  have hpoint : ∀ k ∈ List.range (chunkCount B message.length),
      F (encryptBlock (chunk B message k) 65537 ((p : Int) * (q : Int))) =
          (chunk B message k).dropWhile (fun c => decide (c = 0)) ∧
        G (encryptBlock (chunk B message k) 65537 ((p : Int) * (q : Int))) =
          some (bigSetBytes (chunk B message k)) := by
    intro k hk
    obtain ⟨z, hz, hdz⟩ := decrypt_encrypt_block p q d hp hq hpq hed (chunk B message k)
      (hlt k (List.mem_range.mp hk))
    rw [decryptBlock_some z d _ (by omega) hn] at hdz
    simp only [Outcome.returned.injEq, Prod.mk.injEq, Int.toNat_ofNat] at hdz
    rw [hz]
    exact ⟨hdz.1, hdz.2⟩
  have hF : List.map F ((List.range (chunkCount B message.length)).map
      (fun k => encryptBlock (chunk B message k) 65537 ((p : Int) * (q : Int)))) =
      (List.range (chunkCount B message.length)).map
        (fun k => (chunk B message k).dropWhile (fun c => decide (c = 0))) := by
    rw [List.map_map]
    exact List.map_congr_left (fun k hk => (hpoint k hk).1)
  have hG : List.map G ((List.range (chunkCount B message.length)).map
      (fun k => encryptBlock (chunk B message k) 65537 ((p : Int) * (q : Int)))) =
      (List.range (chunkCount B message.length)).map
        (fun k => some (bigSetBytes (chunk B message k))) := by
    rw [List.map_map]
    exact List.map_congr_left (fun k hk => (hpoint k hk).2)
  rw [hF, hG]

theorem bigExp_eval (v e n r : Nat) (hn : 0 < n) (fuel : Nat) (he : e < 2 ^ fuel)
    (hr : powMod fuel v e n = r) :
    bigExp (v : Int) (e : Int) (n : Int) = some (r : Int) := by
  rw [bigExp_natCast v e n hn, ← powMod_eq n fuel v e he, hr]

theorem int_pow_mod_eval (v e n r : Nat) (hn : 0 < n) (fuel : Nat) (he : e < 2 ^ fuel)
    (hr : powMod fuel v e n = r) :
    (v : Int) ^ (e : Int).toNat % (n : Int) = (r : Int) := by
  have h1 := bigExp_eval v e n r hn fuel he hr
  rw [bigExp_of_nonneg _ _ _ (by omega) (by exact_mod_cast hn)] at h1
  exact Option.some.inj h1

theorem dropWhile_zero_of_head (l : List Byte) (h : l.head? ≠ some 0) :
    l.dropWhile (fun c => decide (c = 0)) = l := by
  cases l with
  | nil => rfl
  | cons b t =>
    have hb : b ≠ 0 := by
      rintro rfl
      exact h rfl
    simp [List.dropWhile, hb]

/-! ## Panics of `modInverse`, bounds on chunks, single turns of the loops -/

/-- One step of Euclid keeps the gcd: `gcd(m, a mod m) = gcd(a, m)`. -/
theorem int_gcd_step (a m : Int) (ha : 0 ≤ a) (hm : 0 ≤ m) :
    Int.gcd m (a % m) = Int.gcd a m := by
  lift a to ℕ using ha
  lift m to ℕ using hm
  rw [← Int.natCast_mod, Int.gcd_natCast_natCast, Int.gcd_natCast_natCast,
    Nat.gcd_comm m, ← Nat.gcd_rec, Nat.gcd_comm]

/-- When `gcd(a, m) > 1` the loop of `modInverse` never sees `a ≤ 1`: it runs
until the divisor `m` is zero and `Div` panics. -/
theorem modInverseLoop_panics :
    ∀ (fuel : Nat) (a m x0 x1 : Int), m.toNat < fuel → 0 < a → 0 ≤ m →
      1 < Int.gcd a m → modInverseLoop fuel a m x0 x1 = .panicked := by
  intro fuel
  induction fuel with
  | zero => intro a m x0 x1 hf; omega
  | succ fuel ih =>
    intro a m x0 x1 hf ha hm hg
    have h1 : a > 1 := by
      by_contra hcon
      have ha1 : a = 1 := by omega
      rw [ha1, Int.one_gcd] at hg
      omega
    unfold modInverseLoop
    by_cases hm0 : m = 0
    · simp [h1, hm0]
    · simp only [h1, hm0, if_true, if_false]
      have hmpos : 0 < m := lt_of_le_of_ne hm (Ne.symm hm0)
      have hr0 : 0 ≤ a % m := Int.emod_nonneg a hm0
      have hrlt : a % m < m := Int.emod_lt_of_pos a hmpos
      apply ih
      · omega
      · exact hmpos
      · exact hr0
      · rw [int_gcd_step a m ha.le hm]; exact hg

/-- With `a ≥ 1`, `m ≥ 1`: `modInverse` panics exactly when `a > 1` and
`gcd(a, m) > 1`, and returns otherwise. -/
theorem modInverse_cases (a m : Int) (ha : 1 ≤ a) (hm : 1 ≤ m) :
    (1 < a ∧ 1 < Int.gcd a m ∧ modInverse a m = .panicked) ∨
      (¬ (1 < a ∧ 1 < Int.gcd a m) ∧ ∃ x, modInverse a m = .returned x) := by
  by_cases hbad : 1 < a ∧ 1 < Int.gcd a m
  · left
    refine ⟨hbad.1, hbad.2, ?_⟩
    unfold modInverse
    rw [modInverseLoop_panics (m.natAbs + 2) a m 0 1 (by omega) (by omega) (by omega) hbad.2]
  · right
    refine ⟨hbad, ?_⟩
    by_cases ha1 : 1 < a
    · have hgpos : 0 < Int.gcd a m := Int.gcd_pos_of_ne_zero_left m (by omega)
      have hg : Int.gcd a m = 1 := by
        have : ¬ 1 < Int.gcd a m := fun h => hbad ⟨ha1, h⟩
        omega
      obtain ⟨x, hx, _⟩ := modInverse_spec a m ha hm (Or.inr ha1) hg
      exact ⟨x, hx⟩
    · have : a = 1 := by omega
      subst this
      refine ⟨if (1 : Int) < 0 then 1 + m else 1, ?_⟩
      unfold modInverse modInverseLoop
      simp

/-- A positive `v` has `k + 1` binary digits with `2^k ≤ v < 2^(k+1)`. -/
theorem natBitLen_bounds :
    ∀ (fuel v : Nat), v ≤ fuel → 0 < v →
      ∃ k, natBitLen fuel v = k + 1 ∧ 2 ^ k ≤ v ∧ v < 2 ^ (k + 1) := by
  intro fuel
  induction fuel with
  | zero => intro v h1 h2; omega
  | succ fuel ih =>
    intro v hf hv
    have hv0 : v ≠ 0 := by omega
    by_cases h2 : v / 2 = 0
    · refine ⟨0, ?_, ?_, ?_⟩
      · simp [natBitLen, hv0, h2, natBitLen_zero]
      · simp; omega
      · simp; omega
    · obtain ⟨k, hk, hlo, hhi⟩ := ih (v / 2) (by omega) (by omega)
      refine ⟨k + 1, ?_, ?_, ?_⟩
      · simp [natBitLen, hv0, hk]
      · rw [pow_succ]; omega
      · rw [pow_succ]; omega

/-- A nonzero integer has at least `2^(BitLen - 1)` as absolute value. -/
theorem two_pow_bigBitLen_le (n : Int) (hn : n ≠ 0) :
    2 ^ (bigBitLen n - 1) ≤ n.natAbs := by
  obtain ⟨k, hk, hlo, _⟩ := natBitLen_bounds n.natAbs n.natAbs (le_refl _)
    (Int.natAbs_pos.mpr hn)
  unfold bigBitLen
  rw [hk]
  simpa using hlo

/-- The big-endian value of `len` bytes is below `256^len`. -/
theorem beValue_lt (l : List Byte) : beValue l < 256 ^ l.length := by
  induction l using List.reverseRecOn with
  | nil => simp [beValue]
  | append_singleton l b ih =>
    rw [beValue_append, List.length_append, List.length_singleton, pow_succ]
    have hb : b.val < 256 := b.isLt
    omega

/-- With block size `B ≥ 1`, every chunk encodes a value below
`2^(bitlen(n) - 88)`, which is at most `|n|`. -/
theorem chunk_value_lt (n : Int) (B : Nat) (hB : 1 ≤ B) (hbs : blockSizeOf n = (B : Int))
    (message : List Byte) (k : Nat) :
    beValue (chunk B message k) < 2 ^ (bigBitLen n - 88) ∧
      2 ^ (bigBitLen n - 88) ≤ n.natAbs := by
  have hn : n ≠ 0 := by
    rintro rfl
    have h0 : blockSizeOf 0 = -11 := by decide
    rw [h0] at hbs
    omega
  have hbits : 8 * B + 88 ≤ bigBitLen n := by
    unfold blockSizeOf paddingSize at hbs
    omega
  have h1 := beValue_lt (chunk B message k)
  have h2 : (chunk B message k).length ≤ B := chunk_length_le B message k
  have h3 : 256 ^ (chunk B message k).length ≤ 2 ^ (bigBitLen n - 88) := by
    have h256 : (256 : Nat) = 2 ^ 8 := by norm_num
    rw [h256, ← pow_mul]
    exact Nat.pow_le_pow_right (by decide) (by omega)
  have h4 : 2 ^ (bigBitLen n - 88) ≤ 2 ^ (bigBitLen n - 1) :=
    Nat.pow_le_pow_right (by decide) (by omega)
  have h5 := two_pow_bigBitLen_le n hn
  exact ⟨by omega, by omega⟩

theorem dropWhile_zero_length_le (l : List Byte) :
    (l.dropWhile (fun c => decide (c = 0))).length ≤ l.length :=
  (List.dropWhile_suffix _).length_le

theorem head_of_dropWhile_zero_length (l : List Byte)
    (h : (l.dropWhile (fun c => decide (c = 0))).length = l.length) :
    l.head? ≠ some 0 := by
  cases l with
  | nil => simp
  | cons b t =>
    intro hb
    simp only [List.head?_cons, Option.some.injEq] at hb
    subst hb
    simp only [List.dropWhile_cons, decide_True, if_true, List.length_cons] at h
    have := dropWhile_zero_length_le t
    omega

theorem flatten_dropWhile_length_le (L : List (List Byte)) :
    ((L.map (fun l => l.dropWhile (fun c => decide (c = 0)))).flatten).length ≤
      L.flatten.length := by
  induction L with
  | nil => simp
  | cons l L ih =>
    simp only [List.map_cons, List.flatten_cons, List.length_append]
    have := dropWhile_zero_length_le l
    omega

/-- Removing the leading zero bytes of every block leaves the concatenation
unchanged exactly when no block begins with a zero byte. -/
theorem flatten_dropWhile_eq_iff (L : List (List Byte)) :
    (L.map (fun l => l.dropWhile (fun c => decide (c = 0)))).flatten = L.flatten ↔
      ∀ l ∈ L, l.head? ≠ some 0 := by
  constructor
  · induction L with
    | nil => intro _ l hl; simp at hl
    | cons l L ih =>
      intro h x hx
      simp only [List.map_cons, List.flatten_cons] at h
      have hlen := congrArg List.length h
      simp only [List.length_append] at hlen
      have h1 := dropWhile_zero_length_le l
      have h2 := flatten_dropWhile_length_le L
      have h3 : (l.dropWhile (fun c => decide (c = 0))).length = l.length := by omega
      have h4 := List.append_inj h h3
      rcases List.mem_cons.mp hx with rfl | hx
      · exact head_of_dropWhile_zero_length _ h3
      · exact ih h4.2 x hx
  · intro h
    congr 1
    have hid : L.map (fun l => l.dropWhile (fun c => decide (c = 0))) = L.map id :=
      List.map_congr_left (fun l hl => dropWhile_zero_of_head l (h l hl))
    rw [hid, List.map_id]

/-- One turn of the loop of `Encrypt` with block size `B ≥ 1` at an index
`i = k*B` inside the message: chunk `k` is appended and the index grows by
`B`. -/
theorem EncryptLoop_step (B : Nat) (message : List Byte) (e n : Int) (k fuel : Nat)
    (acc : List (Option Int)) (hk : k * B < message.length) :
    EncryptLoop (fuel + 1) message e n (B : Int) ((k * B : Nat) : Int) acc =
      EncryptLoop fuel message e n (B : Int) (((k * B : Nat) : Int) + (B : Int))
        (acc ++ [encryptBlock (chunk B message k) e n]) := by
  have hlt2 : ((k * B : Nat) : Int) < (message.length : Int) := by omega
  conv_lhs => unfold EncryptLoop
  rw [if_pos hlt2]
  simp only []
  rw [sliceBytes_chunk B message k hk]

/-- One turn of the loop of `Encrypt` with block size 0 on a non-empty
message: the encryption of the empty block is appended and the index stays
0. -/
theorem EncryptLoop_zero_step (message : List Byte) (e n : Int) (hlen : 0 < message.length)
    (fuel : Nat) (acc : List (Option Int)) :
    EncryptLoop (fuel + 1) message e n 0 0 acc =
      EncryptLoop fuel message e n 0 0 (acc ++ [encryptBlock [] e n]) := by
  conv_lhs => unfold EncryptLoop
  have h1 : (0 : Int) < (message.length : Int) := by omega
  have h2 : ¬ ((0 : Int) + 0 > (message.length : Int)) := by omega
  rw [if_pos h1]
  simp only [if_neg h2]
  have h3 : sliceBytes message 0 (0 + 0) = some [] := by
    unfold sliceBytes
    rw [if_pos (by omega)]
    simp
  rw [h3]
  simp only [add_zero]

/-! ## `Decrypt` on slices that share a `big.Int`, and the range of `generatePrime` -/

/-- The result of `decryptBlock` on a non-nil pointer, by the result of
`Exp`. -/
theorem decryptBlock_some_eq (c d n : Int) :
    decryptBlock (some c) d n =
      match bigExp c d n with
      | none => .panicked
      | some z => .returned (bigBytes z, some z) := rfl

/-- On a slice of `len(heap)` slots in which slot `i` points to cell `i` (no
sharing), the goroutines on pointers do what `runWorkers` does on the cells. -/
theorem runWorkers_eq_shared (d n : Int) :
    ∀ (order : List Nat) (heap : List Int) (messageCh : List (Nat × List Byte)),
      runWorkers order (heap.map some) d n messageCh =
        match runWorkersShared order ((List.range heap.length).map some) heap d n messageCh with
        | .returned (after, ch) => .returned (after.map some, ch)
        | .panicked => .panicked
        | .unfinished => .unfinished := by
  intro order
  induction order with
  | nil => intro heap messageCh; simp [runWorkers, runWorkersShared]
  | cons i rest ih =>
    intro heap messageCh
    unfold runWorkers runWorkersShared
    by_cases hi : i < heap.length
    · have h1 : (heap.map some)[i]? = some (some heap[i]) := by
        simp [List.getElem?_eq_getElem hi]
      have h2 : ((List.range heap.length).map some)[i]? = some (some i) := by
        simp [List.getElem?_range hi]
      have h3 : heap[i]? = some heap[i] := List.getElem?_eq_getElem hi
      simp only [h1, h2, h3]
      rw [decryptBlock_some_eq]
      cases hexp : bigExp heap[i] d n with
      | none => rfl
      | some z =>
        simp only []
        have hset : (heap.map some).set i (some z) = (heap.set i z).map some := by
          rw [List.map_set]
        have hlen : (heap.set i z).length = heap.length := List.length_set _ _ _
        rw [hset, ih (heap.set i z), hlen]
    · have h1 : (heap.map some)[i]? = none := by
        apply List.getElem?_eq_none
        simpa using hi
      have h2 : ((List.range heap.length).map some)[i]? = none := by
        apply List.getElem?_eq_none
        simpa using hi
      simp only [h1, h2]

/-- On a slice without nil slots and without sharing, `Decrypt` is
`DecryptShared` on the slice whose slot `i` points to cell `i`. -/
theorem Decrypt_eq_shared (order : List Nat) (cs : List Int) (d n : Int) :
    Decrypt order (cs.map some) d n =
      match DecryptShared order ((List.range cs.length).map some) cs d n with
      | .returned (s, after) => .returned (s, after.map some)
      | .panicked => .panicked
      | .unfinished => .unfinished := by
  unfold Decrypt DecryptShared
  rw [runWorkers_eq_shared]
  cases runWorkersShared order ((List.range cs.length).map some) cs d n [] with
  | returned v => simp
  | panicked => rfl
  | unfinished => rfl

/-- Value of `Exp` on a negative base with a negative odd exponent: the inverse
of `-2` modulo 7 is 3, and the method returns `7 - 3`. -/
theorem bigExp_negative_base_negative_exponent :
    bigExp (-2) (-1) 7 = some 4 ∧ bigExp 2 (-1) 7 = some 4 ∧ bigExp 2 (-1) 4 = none := by
  decide

/-- A value `generatePrime` returns is a prime of at least 3. -/
theorem generatePrimeReturns_three_le (bits p : Nat) (h : generatePrimeReturns bits p) :
    p.Prime ∧ 3 ≤ p := by
  obtain ⟨_, hp, hodd, _, _⟩ := h
  have := hp.two_le
  refine ⟨hp, ?_⟩
  by_contra hlt
  have : p = 2 := by omega
  omega

/-- The keypair invariant in congruence form, for every pair of primes with
`gcd(65537, (p-1)*(q-1)) = 1`: `(e*d) mod phi = 1 mod phi`, which is 1 as soon
as `phi > 1`. -/
theorem GenerateKeys_invariant (p q : Nat) (hp : p.Prime) (hq : q.Prime)
    (hg : Nat.gcd 65537 ((p - 1) * (q - 1)) = 1) :
    ∃ n e d : Int, GenerateKeys (p : Int) (q : Int) = .returned (n, e, d) ∧
      n = (p : Int) * (q : Int) ∧ e = 65537 ∧ 0 ≤ d ∧ d < ((p : Int) - 1) * ((q : Int) - 1) ∧
      (e * d) % (((p : Int) - 1) * ((q : Int) - 1)) = 1 % (((p : Int) - 1) * ((q : Int) - 1)) ∧
      (1 < ((p : Int) - 1) * ((q : Int) - 1) →
        (e * d) % (((p : Int) - 1) * ((q : Int) - 1)) = 1) := by
  obtain ⟨d, hkeys, hlt, hmod⟩ := GenerateKeys_spec p q hp hq hg
  have hcast := phi_cast p q hp.pos hq.pos
  have hmodZ : ((65537 : Int) * (d : Int)) % (((p : Int) - 1) * ((q : Int) - 1)) =
      1 % (((p : Int) - 1) * ((q : Int) - 1)) := by
    rw [hcast]
    exact_mod_cast hmod
  refine ⟨_, _, _, hkeys, rfl, rfl, by omega, ?_, hmodZ, ?_⟩
  · rw [hcast]
    exact_mod_cast hlt
  · intro h1
    rw [hmodZ]
    exact Int.emod_eq_of_lt (by omega) h1

/-- The pair `p = q = 2`, which `generatePrime` never returns: `phi = 1`, the
derivation gives `d = 0`, and a remainder modulo 1 is 0. -/
theorem GenerateKeys_two_two :
    GenerateKeys 2 2 = .returned (4, 65537, 0) ∧
      ((65537 : Int) * 0) % ((2 - 1) * (2 - 1)) = 0 ∧ ¬ generatePrimeReturns 2 2 := by
  refine ⟨by decide, by decide, ?_⟩
  rintro ⟨_, _, hodd, _, _⟩
  omega

/-! ## The claims -/

/-- C1 (amended): for every keypair that `GenerateKeys` derives from two
distinct primes `p ≠ q` with `gcd(65537, (p-1)*(q-1)) = 1`, with
`blockSize = floor(bitlen(n)/8) - 11 ≥ 1`, and every message whose chunks each
encode a value strictly below `n` and none of whose chunks begins with a `0x00`
byte, `Decrypt(Encrypt(m, e, n)[0], d, n)` equals `m`, in whatever order the
goroutines of `Decrypt` complete. -/
theorem C1_roundtrip (p q : Nat) (hp : p.Prime) (hq : q.Prime) (hpq : p ≠ q)
    (hg : Nat.gcd 65537 ((p - 1) * (q - 1)) = 1) (B : Nat) (hB : 1 ≤ B)
    (hbs : blockSizeOf ((p : Int) * (q : Int)) = (B : Int)) (message : List Byte)
    (hlt : ∀ k, k < chunkCount B message.length → beValue (chunk B message k) < p * q)
    (hlead : ∀ k, k < chunkCount B message.length → (chunk B message k).head? ≠ some 0)
    (order : List Nat) (hperm : order.Perm (List.range (chunkCount B message.length))) :
    ∃ (n e d : Int) (cts cells : List (Option Int)),
      GenerateKeys (p : Int) (q : Int) = .returned (n, e, d) ∧
      Encrypt message e n = .returned (cts, (B : Int)) ∧
      Decrypt order cts d n = .returned (message, cells) := by
  obtain ⟨d, cts, hkeys, henc, hdec⟩ :=
    roundtrip_blocks p q hp hq hpq hg B hB hbs message hlt order hperm
  refine ⟨_, _, _, cts,
    (List.range (chunkCount B message.length)).map
      (fun k => some (bigSetBytes (chunk B message k))), hkeys, henc, ?_⟩
  rw [hdec]
  have hmap : (List.range (chunkCount B message.length)).map
      (fun k => (chunk B message k).dropWhile (fun c => decide (c = 0))) =
      (List.range (chunkCount B message.length)).map (chunk B message) :=
    List.map_congr_left
      (fun k hk => dropWhile_zero_of_head _ (hlead k (List.mem_range.mp hk)))
  rw [hmap, flatten_chunks B hB message]

set_option maxRecDepth 8000 in
/-- C1 (amended), on the two 48-bit primes `228881835937501` and
`262609375000001` (a 96-bit modulus, block size 1), the message `AB`, and block
1 completing before block 0. -/
theorem C1_roundtrip_witness :
    Nat.Prime 228881835937501 ∧ Nat.Prime 262609375000001 ∧
      blockSizeOf (((228881835937501 : Nat) : Int) * ((262609375000001 : Nat) : Int)) =
        ((1 : Nat) : Int) ∧
      ∃ (n e d : Int) (cts cells : List (Option Int)),
        GenerateKeys ((228881835937501 : Nat) : Int) ((262609375000001 : Nat) : Int) =
          .returned (n, e, d) ∧
        Encrypt [65, 66] e n = .returned (cts, ((1 : Nat) : Int)) ∧
        Decrypt [1, 0] cts d n = .returned ([65, 66], cells) :=
  ⟨prime_228881835937501, prime_262609375000001, by decide,
    C1_roundtrip 228881835937501 262609375000001 prime_228881835937501 prime_262609375000001
      (by decide) (by decide) 1 (by decide) (by decide) [65, 66] (by decide) (by decide)
      [1, 0] (by decide)⟩

set_option maxRecDepth 8000 in
/-- C1 as stated fails.  (1) Leading zero byte: with the primes
`228881835937501` and `262609375000001` (block size 1) and the message `00 41`,
every chunk encodes a value below `n`, yet the round trip returns `41`.
(2) Equal primes: with `p = q = 228881835937501` the message `41` comes back as
twelve other bytes.  (3) Small modulus: with `p = 3`, `q = 5` the block size is
negative and `Encrypt` panics on the one-byte message `01`. -/
theorem C1_counterexample :
    (Nat.Prime 228881835937501 ∧ Nat.Prime 262609375000001 ∧
      (∀ k, k < chunkCount 1 ([0, 65] : List Byte).length →
        beValue (chunk 1 [0, 65] k) < 228881835937501 * 262609375000001) ∧
      GenerateKeys 228881835937501 262609375000001 =
        .returned (60106515884399905553710937501, 65537, 56902033431737687820310473473) ∧
      Encrypt [0, 65] 65537 60106515884399905553710937501 =
        .returned ([some 0, some 52959275492299996049266862089], 1) ∧
      Decrypt [0, 1] [some 0, some 52959275492299996049266862089]
          56902033431737687820310473473 60106515884399905553710937501 =
        .returned ([65], [some 0, some 65])) ∧
    (beValue [65] < 228881835937501 * 228881835937501 ∧
      GenerateKeys 228881835937501 228881835937501 =
        .returned (52386894822121124267578125001, 65537, 34568620069234636062497973473) ∧
      Encrypt [65] 65537 52386894822121124267578125001 =
        .returned ([some 30045350881867995912388581638], 1) ∧
      Decrypt [0] [some 30045350881867995912388581638]
          34568620069234636062497973473 52386894822121124267578125001 =
        .returned ([105, 85, 15, 25, 20, 187, 94, 57, 27, 221, 132, 152],
          [some 32598756024068211884146132120])) ∧
    (Nat.Prime 3 ∧ Nat.Prime 5 ∧ beValue [1] < 3 * 5 ∧
      GenerateKeys 3 5 = .returned (15, 65537, 1) ∧
      Encrypt [1] 65537 15 = .panicked) := by
  refine ⟨⟨prime_228881835937501, prime_262609375000001, by decide, by decide, ?_, ?_⟩,
    ⟨by decide, by decide, ?_, ?_⟩,
    ⟨Nat.prime_three, Nat.prime_five, by decide, by decide, by decide⟩⟩
  · have e0 : encryptBlock [0] 65537 60106515884399905553710937501 = some 0 :=
      bigExp_eval 0 65537 60106515884399905553710937501 0 (by decide) 64 (by decide) (by decide)
    have e1 : encryptBlock [65] 65537 60106515884399905553710937501 =
        some 52959275492299996049266862089 :=
      bigExp_eval 65 65537 60106515884399905553710937501 52959275492299996049266862089
        (by decide) 64 (by decide) (by decide)
    rw [Encrypt_eq 1 (by decide) _ _ _ (by decide)]
    show Outcome.returned ([encryptBlock [0] 65537 60106515884399905553710937501,
      encryptBlock [65] 65537 60106515884399905553710937501], (1 : Int)) = _
    rw [e0, e1]
  · have x0 : (0 : Int) ^ (56902033431737687820310473473 : Int).toNat %
        60106515884399905553710937501 = 0 :=
      int_pow_mod_eval 0 56902033431737687820310473473 60106515884399905553710937501 0
        (by decide) 128 (by decide) (by decide)
    have x1 : (52959275492299996049266862089 : Int) ^
        (56902033431737687820310473473 : Int).toNat % 60106515884399905553710937501 = 65 :=
      int_pow_mod_eval 52959275492299996049266862089 56902033431737687820310473473
        60106515884399905553710937501 65 (by decide) 128 (by decide) (by decide)
    have h := Decrypt_ints [0, 52959275492299996049266862089] 56902033431737687820310473473
      60106515884399905553710937501 (by decide) (by decide) [0, 1] (by decide)
    simp only [List.map, x0, x1] at h
    exact h
  · have e1 : encryptBlock [65] 65537 52386894822121124267578125001 =
        some 30045350881867995912388581638 :=
      bigExp_eval 65 65537 52386894822121124267578125001 30045350881867995912388581638
        (by decide) 64 (by decide) (by decide)
    rw [Encrypt_eq 1 (by decide) _ _ _ (by decide)]
    show Outcome.returned ([encryptBlock [65] 65537 52386894822121124267578125001],
      (1 : Int)) = _
    rw [e1]
  · have x1 : (30045350881867995912388581638 : Int) ^
        (34568620069234636062497973473 : Int).toNat % 52386894822121124267578125001 =
        32598756024068211884146132120 :=
      int_pow_mod_eval 30045350881867995912388581638 34568620069234636062497973473
        52386894822121124267578125001 32598756024068211884146132120
        (by decide) 128 (by decide) (by decide)
    have h := Decrypt_ints [30045350881867995912388581638] 34568620069234636062497973473
      52386894822121124267578125001 (by decide) (by decide) [0] (by decide)
    simp only [List.map, x1] at h
    exact h

/-- C2: for every integer `m > 1` and every `a` in `[1, m)` with `gcd(a, m) = 1`,
`modInverse(a, m)` returns an `x` with `0 ≤ x < m` and `(a*x) mod m = 1`.  The
coefficient `x1` left by the loop lies strictly between `-m` and `m`, so the
single addition of the original modulus to a negative `x1` already gives the
normalised result. -/
theorem C2_modInverse_correct (a m : Int) (hm : 1 < m) (ha1 : 1 ≤ a) (_ha2 : a < m)
    (hg : Int.gcd a m = 1) :
    ∃ x1 x, modInverseLoop (m.natAbs + 2) a m 0 1 = .returned x1 ∧ -m < x1 ∧ x1 < m ∧
      x = (if x1 < 0 then x1 + m else x1) ∧
      modInverse a m = .returned x ∧ 0 ≤ x ∧ x < m ∧ (a * x) % m = 1 := by
  obtain ⟨x1, hx, habs, hdvd⟩ :=
    modInverseLoop_spec a m (by omega) (m.natAbs + 2) a m 0 1 0 1 (by omega) (by omega)
      (by omega) hg (le_refl 0) (by norm_num) (Or.inl ⟨by ring, rfl⟩) (by ring) (by omega)
      (by simp) (by simp)
  obtain ⟨x, hret, h0, hlt, hmod⟩ := modInverse_spec a m ha1 (by omega) (Or.inl hm) hg
  have hone : (1 : Int) % m = 1 := Int.emod_eq_of_lt (by omega) hm
  refine ⟨x1, x, hx, (abs_lt.mp habs).1, (abs_lt.mp habs).2, ?_, hret, h0, hlt, ?_⟩
  · unfold modInverse at hret
    rw [hx] at hret
    simp only [Outcome.returned.injEq] at hret
    exact hret.symm
  · rw [hmod, hone]

/-- C2, at `a = 3`, `m = 7`: the loop leaves `x1 = -2` and the result is 5. -/
theorem C2_modInverse_correct_witness :
    (1 : Int) < 7 ∧ (1 : Int) ≤ 3 ∧ (3 : Int) < 7 ∧ Int.gcd 3 7 = 1 ∧
      modInverse 3 7 = .returned 5 ∧
      ∃ x1 x, modInverseLoop ((7 : Int).natAbs + 2) 3 7 0 1 = .returned x1 ∧ -7 < x1 ∧ x1 < 7 ∧
        x = (if x1 < 0 then x1 + 7 else x1) ∧
        modInverse 3 7 = .returned x ∧ 0 ≤ x ∧ x < 7 ∧ (3 * x) % 7 = 1 :=
  ⟨by decide, by decide, by decide, by decide, by decide,
    C2_modInverse_correct 3 7 (by decide) (by decide) (by decide) (by decide)⟩

/-- C3: for every pair of primes `p`, `q` with `gcd(65537, (p-1)*(q-1)) = 1`
that are not both 2 (`generatePrime` returns odd primes only, so this covers
every pair the derivation can receive), the key derivation of `GenerateKeys`
on `p` and `q` returns `(n, e, d)` with `n = p*q`, `e = 65537`,
`0 ≤ d < (p-1)*(q-1)` and `(e*d) mod ((p-1)*(q-1)) = 1`. -/
theorem C3_keypair_invariant (p q : Nat) (hp : p.Prime) (hq : q.Prime)
    (hreach : p ≠ 2 ∨ q ≠ 2) (hg : Nat.gcd 65537 ((p - 1) * (q - 1)) = 1) :
    ∃ n e d : Int, GenerateKeys (p : Int) (q : Int) = .returned (n, e, d) ∧
      n = (p : Int) * (q : Int) ∧ e = 65537 ∧ 0 ≤ d ∧ d < ((p : Int) - 1) * ((q : Int) - 1) ∧
      (e * d) % (((p : Int) - 1) * ((q : Int) - 1)) = 1 := by
  obtain ⟨n, e, d, hkeys, hn, he, h0, hlt, _, hone⟩ := GenerateKeys_invariant p q hp hq hg
  refine ⟨n, e, d, hkeys, hn, he, h0, hlt, hone ?_⟩
  have hp2 := hp.two_le
  have hq2 := hq.two_le
  have hphi : 2 ≤ (p - 1) * (q - 1) := by
    rcases hreach with h | h
    · calc 2 = 2 * 1 := by norm_num
        _ ≤ (p - 1) * (q - 1) := Nat.mul_le_mul (by omega) (by omega)
    · calc 2 = 1 * 2 := by norm_num
        _ ≤ (p - 1) * (q - 1) := Nat.mul_le_mul (by omega) (by omega)
  rw [phi_cast p q hp.pos hq.pos]
  exact_mod_cast hphi

set_option maxRecDepth 8000 in
/-- C3, on two primes `generatePrime(96 / 2)` can return, `228881835937501` and
`262609375000001`: the keypair is
`(60106515884399905553710937501, 65537, 56902033431737687820310473473)`. -/
theorem C3_keypair_invariant_witness :
    generatePrimeReturns (96 / 2) 228881835937501 ∧
      generatePrimeReturns (96 / 2) 262609375000001 ∧
      Nat.gcd 65537 ((228881835937501 - 1) * (262609375000001 - 1)) = 1 ∧
      GenerateKeys 228881835937501 262609375000001 =
        .returned (60106515884399905553710937501, 65537, 56902033431737687820310473473) ∧
      ∃ n e d : Int,
        GenerateKeys ((228881835937501 : Nat) : Int) ((262609375000001 : Nat) : Int) =
          .returned (n, e, d) ∧
        n = ((228881835937501 : Nat) : Int) * ((262609375000001 : Nat) : Int) ∧ e = 65537 ∧
        0 ≤ d ∧
        d < (((228881835937501 : Nat) : Int) - 1) * (((262609375000001 : Nat) : Int) - 1) ∧
        (e * d) %
          ((((228881835937501 : Nat) : Int) - 1) * (((262609375000001 : Nat) : Int) - 1)) = 1 :=
  have h1 : generatePrimeReturns (96 / 2) 228881835937501 :=
    ⟨by decide, prime_228881835937501, by decide, by decide, by decide⟩
  have h2 : generatePrimeReturns (96 / 2) 262609375000001 :=
    ⟨by decide, prime_262609375000001, by decide, by decide, by decide⟩
  ⟨h1, h2, by decide, by decide,
    C3_keypair_invariant 228881835937501 262609375000001
      (generatePrimeReturns_three_le _ _ h1).1 (generatePrimeReturns_three_le _ _ h2).1
      (Or.inl (by decide)) (by decide)⟩

/-- C4 fails on the code: on the two-slot slice whose slots both point to one
`big.Int` holding 2, with `d = 3` and `n = 15`, the string of the claim is
`08 08`; `Decrypt` returns `08 02` when goroutine 0 completes first and `02 08`
when goroutine 1 does, because each `decryptBlock` overwrites the `big.Int` the
other slot points to as well. -/
theorem C4_shared_cell_order_dependent :
    ([(2 : Int), 2].map (fun c => bigBytes (c ^ (3 : Int).toNat % 15))).flatten = [8, 8] ∧
      DecryptShared [0, 1] [some 0, some 0] [2] 3 15 = .returned ([8, 2], [2]) ∧
      DecryptShared [1, 0] [some 0, some 0] [2] 3 15 = .returned ([2, 8], [2]) :=
  ⟨by decide, by decide, by decide⟩

/-- C5 fails on the code: on the one-element slice holding 2, with `d = 3` and
`n = 15`, the first `Decrypt` returns the byte `08` and leaves 8 in the cell,
and the second `Decrypt` of the same slice returns the byte `02`. -/
theorem C5_second_decrypt_differs :
    Decrypt [0] [some 2] 3 15 = .returned ([8], [some 8]) ∧
      Decrypt [0] [some 8] 3 15 = .returned ([2], [some 2]) ∧
      DecryptTwice [0] [0] [some 2] 3 15 = .returned ([8], [2]) :=
  ⟨by decide, by decide, by decide⟩

/-- C6: for every message, `e` and modulus `n` with
`blockSize = floor(bitlen(n)/8) - 11 ≥ 1`, `Encrypt` returns, and its
ciphertext sequence has exactly `ceil(len(message) / blockSize)` elements
(computed in integers as `(len + blockSize - 1) / blockSize`); a message of
exactly `2*blockSize` bytes gives exactly 2 ciphertext blocks. -/
theorem C6_block_count (message : List Byte) (e n : Int) (B : Nat) (hB : 1 ≤ B)
    (hbs : blockSizeOf n = (B : Int)) :
    ∃ cts, Encrypt message e n = .returned (cts, (B : Int)) ∧
      cts.length = ⌈(message.length : ℚ) / (B : ℚ)⌉₊ ∧
      cts.length = (message.length + B - 1) / B ∧
      (message.length = 2 * B → cts.length = 2) := by
  refine ⟨_, Encrypt_eq B hB message e n hbs, ?_, ?_, ?_⟩
  · rw [← chunkCount_eq_ceil B _ hB]; simp
  · simp [chunkCount]
  · intro hlen
    simp only [List.length_map, List.length_range, chunkCount, hlen]
    have h : 2 * B + B - 1 = B * 2 + (B - 1) := by omega
    rw [h, Nat.mul_add_div (by omega), Nat.div_eq_of_lt (by omega)]

/-- C6, on a 1024-bit modulus (`2^1023`, block size 117) and a message of
`2*117` bytes: exactly 2 ciphertext blocks. -/
theorem C6_block_count_witness :
    1 ≤ 117 ∧ blockSizeOf ((2 : Int) ^ 1023) = ((117 : Nat) : Int) ∧
      (List.replicate 234 (65 : Byte)).length = 2 * 117 ∧
      ∃ cts, Encrypt (List.replicate 234 (65 : Byte)) 3 ((2 : Int) ^ 1023) =
          .returned (cts, ((117 : Nat) : Int)) ∧
        cts.length = ⌈((List.replicate 234 (65 : Byte)).length : ℚ) / ((117 : Nat) : ℚ)⌉₊ ∧
        cts.length = ((List.replicate 234 (65 : Byte)).length + 117 - 1) / 117 ∧
        ((List.replicate 234 (65 : Byte)).length = 2 * 117 → cts.length = 2) :=
  ⟨by decide, by rw [blockSizeOf, bigBitLen_two_pow]; decide,
    List.length_replicate 234 (65 : Byte),
    C6_block_count (List.replicate 234 (65 : Byte)) 3 ((2 : Int) ^ 1023) 117 (by decide)
      (by rw [blockSizeOf, bigBitLen_two_pow]; decide)⟩

/-- C7: for every message, every exponent `e ≥ 0` and every `n` with
`blockSize = floor(bitlen(n)/8) - 11 ≥ 1`, the `k`-th element of the ciphertext
sequence of `Encrypt` is `(big-endian value of bytes [k*blockSize,
min((k+1)*blockSize, len))) ^ e mod n`; every chunk has exactly `blockSize`
bytes except possibly the last, every chunk has between 1 and `blockSize`
bytes, and the chunks concatenated in order are the bytes of the message. -/
theorem C7_chunking_order (message : List Byte) (e n : Int) (B : Nat) (hB : 1 ≤ B)
    (hbs : blockSizeOf n = (B : Int)) (he : 0 ≤ e) :
    ∃ cts, Encrypt message e n = .returned (cts, (B : Int)) ∧
      cts.length = chunkCount B message.length ∧
      (∀ k, k < chunkCount B message.length →
        cts[k]? = some (some (bigSetBytes (chunk B message k) ^ e.toNat % n)) ∧
        chunk B message k =
          (message.drop (k * B)).take (min ((k + 1) * B) message.length - k * B) ∧
        1 ≤ (chunk B message k).length ∧ (chunk B message k).length ≤ B ∧
        (k + 1 < chunkCount B message.length → (chunk B message k).length = B)) ∧
      ((List.range (chunkCount B message.length)).map (chunk B message)).flatten = message := by
  have hn : n ≠ 0 := by
    rintro rfl
    have h0 : blockSizeOf 0 = -11 := by decide
    rw [h0] at hbs
    omega
  refine ⟨_, Encrypt_eq B hB message e n hbs, by simp, ?_, flatten_chunks B hB message⟩
  intro k hk
  have hkB : k * B < message.length := (lt_chunkCount_iff B _ k hB).mp hk
  refine ⟨?_, chunk_eq_slice B message k, ?_, ?_, ?_⟩
  · rw [List.getElem?_map, List.getElem?_range hk]
    simp only [Option.map_some']
    rw [encryptBlock, bigExp_of_nonneg_ne _ _ _ he hn]
  · rw [chunk_length]; omega
  · rw [chunk_length]; omega
  · intro hk1
    have h1 : (k + 1) * B < message.length := (lt_chunkCount_iff B _ (k + 1) hB).mp hk1
    have h2 : (k + 1) * B = k * B + B := by ring
    rw [chunk_length]; omega

set_option maxRecDepth 8000 in
/-- C7, on a 104-bit modulus (`2^103`, block size 2), `e = 3` and the message
`01 02 03 04 05`: the ciphertexts are `258^3`, `772^3`, `5^3` modulo `n`. -/
theorem C7_chunking_order_witness :
    1 ≤ 2 ∧ blockSizeOf ((2 : Int) ^ 103) = ((2 : Nat) : Int) ∧ (0 : Int) ≤ 3 ∧
      Encrypt [1, 2, 3, 4, 5] 3 ((2 : Int) ^ 103) =
        .returned ([some 17173512, some 460099648, some 125], 2) ∧
      ∃ cts, Encrypt [1, 2, 3, 4, 5] 3 ((2 : Int) ^ 103) = .returned (cts, ((2 : Nat) : Int)) ∧
        cts.length = chunkCount 2 ([1, 2, 3, 4, 5] : List Byte).length ∧
        (∀ k, k < chunkCount 2 ([1, 2, 3, 4, 5] : List Byte).length →
          cts[k]? = some (some (bigSetBytes (chunk 2 [1, 2, 3, 4, 5] k) ^ (3 : Int).toNat %
            ((2 : Int) ^ 103))) ∧
          chunk 2 [1, 2, 3, 4, 5] k =
            (([1, 2, 3, 4, 5] : List Byte).drop (k * 2)).take
              (min ((k + 1) * 2) ([1, 2, 3, 4, 5] : List Byte).length - k * 2) ∧
          1 ≤ (chunk 2 [1, 2, 3, 4, 5] k).length ∧ (chunk 2 [1, 2, 3, 4, 5] k).length ≤ 2 ∧
          (k + 1 < chunkCount 2 ([1, 2, 3, 4, 5] : List Byte).length →
            (chunk 2 [1, 2, 3, 4, 5] k).length = 2)) ∧
        ((List.range (chunkCount 2 ([1, 2, 3, 4, 5] : List Byte).length)).map
          (chunk 2 [1, 2, 3, 4, 5])).flatten = [1, 2, 3, 4, 5] :=
  ⟨by decide, by rw [blockSizeOf, bigBitLen_two_pow]; decide, by decide,
    by
      rw [Encrypt_eq 2 (by decide) _ _ _ (by rw [blockSizeOf, bigBitLen_two_pow]; decide)]
      decide,
    C7_chunking_order [1, 2, 3, 4, 5] 3 ((2 : Int) ^ 103) 2 (by decide)
      (by rw [blockSizeOf, bigBitLen_two_pow]; decide) (by decide)⟩

/-- C8: for every message, `e` and `n` on which `Encrypt` returns, the second
component of the result is `floor(bitlen(n)/8) - 11`, whatever the message and
`e`; for every `n` of bit length 1024 it is 117. -/
theorem C8_block_size (message : List Byte) (e n : Int) (cts : List (Option Int)) (bs : Int)
    (h : Encrypt message e n = .returned (cts, bs)) :
    bs = ((bigBitLen n / 8 : Nat) : Int) - 11 ∧ (bigBitLen n = 1024 → bs = 117) := by
  have hbs : bs = blockSizeOf n := by
    unfold Encrypt at h
    split at h
    · simp only [Outcome.returned.injEq, Prod.mk.injEq] at h
      exact h.2.symm
    · exact absurd h (by simp)
    · exact absurd h (by simp)
  subst hbs
  refine ⟨rfl, ?_⟩
  intro h1024
  rw [blockSizeOf, h1024]
  decide

/-- C8, on the 1024-bit modulus `2^1023` and the message `AB`: one ciphertext
block and block size 117. -/
theorem C8_block_size_witness :
    Encrypt [65, 66] 3 ((2 : Int) ^ 1023) =
        .returned ([encryptBlock [65, 66] 3 ((2 : Int) ^ 1023)], 117) ∧
      bigBitLen ((2 : Int) ^ 1023) = 1024 ∧
      ((117 : Int) = ((bigBitLen ((2 : Int) ^ 1023) / 8 : Nat) : Int) - 11 ∧
        (bigBitLen ((2 : Int) ^ 1023) = 1024 → (117 : Int) = 117)) :=
  have h : Encrypt [65, 66] 3 ((2 : Int) ^ 1023) =
      .returned ([encryptBlock [65, 66] 3 ((2 : Int) ^ 1023)], 117) := by
    rw [Encrypt_eq 117 (by decide) _ _ _ (by rw [blockSizeOf, bigBitLen_two_pow]; decide)]
    rfl
  ⟨h, bigBitLen_two_pow 1023, C8_block_size _ _ _ _ _ h⟩

/-- C9: for every `e` and every `n`, also one so small that the block size is
zero or negative, `Encrypt` on the empty message returns the empty ciphertext
sequence (with the block size), without a panic. -/
theorem C9_encrypt_empty (e n : Int) :
    Encrypt [] e n = .returned ([], blockSizeOf n) := by
  simp [Encrypt, EncryptLoop]

/-- C10: for every `d` and `n`, `Decrypt` of the empty ciphertext sequence (no
goroutine, so the empty completion order) returns the empty string. -/
theorem C10_decrypt_empty (d n : Int) :
    Decrypt [] [] d n = .returned ([], []) := by
  simp [Decrypt, runWorkers, collect, join]

/-- C11 as stated fails: at `a = 2`, `m = 4` (`gcd = 2`) the loop reaches the
state `a = 2`, `m = 0` and `Div` panics; `modInverse` returns no integer. -/
theorem C11_counterexample :
    (1 : Int) < 4 ∧ (1 : Int) ≤ 2 ∧ (2 : Int) < 4 ∧ Int.gcd 2 4 ≠ 1 ∧
      modInverse 2 4 = .panicked ∧ ¬ ∃ x, modInverse 2 4 = .returned x := by
  refine ⟨by decide, by decide, by decide, by decide, by decide, ?_⟩
  have h : modInverse 2 4 = .panicked := by decide
  rw [h]
  simp

/-- C11 (amended): for every `m > 1` and every `a` in `[1, m)` with
`gcd(a, m) ≠ 1`, `modInverse(a, m)` returns no integer: its loop runs until the
divisor is zero and `Div` panics with a division by zero. -/
theorem C11_modInverse_panics (a m : Int) (hm : 1 < m) (ha1 : 1 ≤ a) (_ha2 : a < m)
    (hg : Int.gcd a m ≠ 1) :
    modInverse a m = .panicked ∧ ∀ x, modInverse a m ≠ .returned x := by
  have hgpos : 0 < Int.gcd a m := Int.gcd_pos_of_ne_zero_left m (by omega)
  have hg1 : 1 < Int.gcd a m := by omega
  have hpanic : modInverse a m = .panicked := by
    unfold modInverse
    rw [modInverseLoop_panics (m.natAbs + 2) a m 0 1 (by omega) (by omega) (by omega) hg1]
  refine ⟨hpanic, ?_⟩
  intro x hx
  rw [hpanic] at hx
  exact absurd hx (by simp)

/-- C11 (amended), at `a = 6`, `m = 9`. -/
theorem C11_modInverse_panics_witness :
    (1 : Int) < 9 ∧ (1 : Int) ≤ 6 ∧ (6 : Int) < 9 ∧ Int.gcd 6 9 ≠ 1 ∧
      (modInverse 6 9 = .panicked ∧ ∀ x, modInverse 6 9 ≠ .returned x) :=
  ⟨by decide, by decide, by decide, by decide,
    C11_modInverse_panics 6 9 (by decide) (by decide) (by decide) (by decide)⟩

/-- C12 fails on the code: `decryptBlock` on a cell holding 2, with `d = 3`,
`n = 15`, leaves 8 in the cell, and so does `Decrypt` on the one-element slice:
the element no longer holds the value it held before the call. -/
theorem C12_ciphertext_overwritten :
    decryptBlock (some 2) 3 15 = .returned ([8], some 8) ∧
      Decrypt [0] [some 2] 3 15 = .returned ([8], [some 8]) ∧
      ([some 8] : List (Option Int)) ≠ [some 2] :=
  ⟨by decide, by decide, by decide⟩

/-- C13: for distinct primes `p ≠ q` with `gcd(65537, (p-1)*(q-1)) = 1`,
`n = p*q`, `e = 65537`, `d = modInverse(e, (p-1)*(q-1))` and
`blockSize = floor(bitlen(n)/8) - 11 ≥ 1`, `Decrypt(Encrypt(m, e, n)[0], d, n)`
is the concatenation of the chunks of `m`, each without its leading zero bytes
(an all-zero chunk contributes nothing), in whatever order the goroutines
complete; it equals `m` exactly when no chunk of `m` begins with a `0x00`
byte. -/
theorem C13_roundtrip_exact (p q : Nat) (hp : p.Prime) (hq : q.Prime) (hpq : p ≠ q)
    (hg : Nat.gcd 65537 ((p - 1) * (q - 1)) = 1) (B : Nat) (hB : 1 ≤ B)
    (hbs : blockSizeOf ((p : Int) * (q : Int)) = (B : Int)) (message : List Byte)
    (order : List Nat) (hperm : order.Perm (List.range (chunkCount B message.length))) :
    ∃ (n e d : Int) (cts cells : List (Option Int)),
      GenerateKeys (p : Int) (q : Int) = .returned (n, e, d) ∧
      Encrypt message e n = .returned (cts, (B : Int)) ∧
      Decrypt order cts d n =
        .returned (((List.range (chunkCount B message.length)).map
          (fun k => (chunk B message k).dropWhile (fun c => decide (c = 0)))).flatten, cells) ∧
      (∀ k, (∀ b ∈ chunk B message k, b = 0) →
        (chunk B message k).dropWhile (fun c => decide (c = 0)) = []) ∧
      (((List.range (chunkCount B message.length)).map
          (fun k => (chunk B message k).dropWhile (fun c => decide (c = 0)))).flatten = message ↔
        ∀ k, k < chunkCount B message.length → (chunk B message k).head? ≠ some 0) := by
  have hlt : ∀ k, k < chunkCount B message.length → beValue (chunk B message k) < p * q := by
    intro k _
    have h := chunk_value_lt ((p : Int) * (q : Int)) B hB hbs message k
    have habs : ((p : Int) * (q : Int)).natAbs = p * q := by
      rw [Int.natAbs_mul, Int.natAbs_ofNat, Int.natAbs_ofNat]
    rw [habs] at h
    omega
  obtain ⟨d, cts, hkeys, henc, hdec⟩ :=
    roundtrip_blocks p q hp hq hpq hg B hB hbs message hlt order hperm
  refine ⟨_, _, _, cts, _, hkeys, henc, hdec, ?_, ?_⟩
  · intro k hall
    rw [List.dropWhile_eq_nil_iff]
    intro b hb
    simp [hall b hb]
  · have hmap : (List.range (chunkCount B message.length)).map
        (fun k => (chunk B message k).dropWhile (fun c => decide (c = 0))) =
        ((List.range (chunkCount B message.length)).map (chunk B message)).map
          (fun l => l.dropWhile (fun c => decide (c = 0))) := by
      rw [List.map_map]
      rfl
    rw [hmap]
    conv_lhs => rhs; rw [← flatten_chunks B hB message]
    rw [flatten_dropWhile_eq_iff]
    constructor
    · intro h k hk
      exact h _ (List.mem_map.mpr ⟨k, List.mem_range.mpr hk, rfl⟩)
    · intro h l hl
      obtain ⟨k, hk, rfl⟩ := List.mem_map.mp hl
      exact h k (List.mem_range.mp hk)

set_option maxRecDepth 8000 in
/-- C13, on the primes `228881835937501` and `262609375000001` (block size 1)
and the message `00 41`. -/
theorem C13_roundtrip_exact_witness :
    Nat.Prime 228881835937501 ∧ Nat.Prime 262609375000001 ∧
      blockSizeOf (((228881835937501 : Nat) : Int) * ((262609375000001 : Nat) : Int)) =
        ((1 : Nat) : Int) ∧
      ((List.range (chunkCount 1 ([0, 65] : List Byte).length)).map
          (fun k => (chunk 1 [0, 65] k).dropWhile (fun c => decide (c = 0)))).flatten = [65] ∧
      ∃ (n e d : Int) (cts cells : List (Option Int)),
        GenerateKeys ((228881835937501 : Nat) : Int) ((262609375000001 : Nat) : Int) =
          .returned (n, e, d) ∧
        Encrypt [0, 65] e n = .returned (cts, ((1 : Nat) : Int)) ∧
        Decrypt [0, 1] cts d n =
          .returned (((List.range (chunkCount 1 ([0, 65] : List Byte).length)).map
            (fun k => (chunk 1 [0, 65] k).dropWhile (fun c => decide (c = 0)))).flatten,
            cells) ∧
        (∀ k, (∀ b ∈ chunk 1 [0, 65] k, b = 0) →
          (chunk 1 [0, 65] k).dropWhile (fun c => decide (c = 0)) = []) ∧
        (((List.range (chunkCount 1 ([0, 65] : List Byte).length)).map
            (fun k => (chunk 1 [0, 65] k).dropWhile (fun c => decide (c = 0)))).flatten =
            [0, 65] ↔
          ∀ k, k < chunkCount 1 ([0, 65] : List Byte).length →
            (chunk 1 [0, 65] k).head? ≠ some 0) :=
  ⟨prime_228881835937501, prime_262609375000001, by decide, by decide,
    C13_roundtrip_exact 228881835937501 262609375000001 prime_228881835937501
      prime_262609375000001 (by decide) (by decide) 1 (by decide) (by decide) [0, 65]
      [0, 1] (by decide)⟩

/-- C14: for every non-empty message and every modulus `n` with
`floor(bitlen(n)/8) < 11` (for instance any 64-bit modulus), the block size is
negative, the slice expression `message[0:blockSize]` of the first turn is out
of range (end below start), so `Encrypt` panics on its first turn, before any
block is encrypted, and returns nothing. -/
theorem C14_encrypt_small_modulus (message : List Byte) (e n : Int) (hne : message ≠ [])
    (hsmall : bigBitLen n / 8 < 11) :
    blockSizeOf n < 0 ∧ sliceBytes message 0 (blockSizeOf n) = none ∧
      (∀ fuel, EncryptLoop (fuel + 1) message e n (blockSizeOf n) 0 [] = .panicked) ∧
      Encrypt message e n = .panicked ∧ ∀ r, Encrypt message e n ≠ .returned r := by
  have hlen : 0 < message.length := List.length_pos.mpr hne
  have hneg : blockSizeOf n < 0 := by
    unfold blockSizeOf paddingSize
    omega
  have hloop := EncryptLoop_neg_panics message e n (blockSizeOf n) hneg hlen
  have hE : Encrypt message e n = .panicked := by
    unfold Encrypt
    rw [hloop message.length]
  refine ⟨hneg, ?_, hloop, hE, ?_⟩
  · unfold sliceBytes
    rw [if_neg (by omega)]
  · intro r hr
    rw [hE] at hr
    exact absurd hr (by simp)

/-- C14, on the 64-bit modulus `4294967291 * 4294967279` and the message `A`:
block size `8 - 11 = -3`. -/
theorem C14_encrypt_small_modulus_witness :
    ([65] : List Byte) ≠ [] ∧ bigBitLen (4294967291 * 4294967279) = 64 ∧
      bigBitLen (4294967291 * 4294967279) / 8 < 11 ∧
      blockSizeOf (4294967291 * 4294967279) = -3 ∧
      (blockSizeOf (4294967291 * 4294967279) < 0 ∧
        sliceBytes [65] 0 (blockSizeOf (4294967291 * 4294967279)) = none ∧
        (∀ fuel, EncryptLoop (fuel + 1) [65] 65537 (4294967291 * 4294967279)
          (blockSizeOf (4294967291 * 4294967279)) 0 [] = .panicked) ∧
        Encrypt [65] 65537 (4294967291 * 4294967279) = .panicked ∧
        ∀ r, Encrypt [65] 65537 (4294967291 * 4294967279) ≠ .returned r) :=
  ⟨by decide, by decide, by decide, by decide,
    C14_encrypt_small_modulus [65] 65537 (4294967291 * 4294967279) (by decide) (by decide)⟩

/-- C15: with `blockSize = floor(bitlen(n)/8) - 11 ≥ 1`, every turn of the
loop of `Encrypt` moves the index from `i` to `i + blockSize > i`, and the loop
is left: `Encrypt` returns.  With a non-empty message and
`floor(bitlen(n)/8) = 11` the block size is 0: every turn appends the
encryption of the empty block and leaves the index at 0, no amount of fuel
ends the loop, and `Encrypt` never returns. -/
theorem C15_encrypt_termination (message : List Byte) (e n : Int) :
    (∀ B : Nat, 1 ≤ B → blockSizeOf n = (B : Int) →
      (∃ cts, Encrypt message e n = .returned (cts, (B : Int))) ∧
      (∀ fuel, message.length < fuel →
        EncryptLoop fuel message e n (B : Int) 0 [] ≠ .unfinished) ∧
      ∀ (k fuel : Nat) (acc : List (Option Int)), k * B < message.length →
        ((k * B : Nat) : Int) < ((k * B : Nat) : Int) + (B : Int) ∧
        EncryptLoop (fuel + 1) message e n (B : Int) ((k * B : Nat) : Int) acc =
          EncryptLoop fuel message e n (B : Int) (((k * B : Nat) : Int) + (B : Int))
            (acc ++ [encryptBlock (chunk B message k) e n])) ∧
    (message ≠ [] → bigBitLen n / 8 = 11 →
      blockSizeOf n = 0 ∧
      (∀ (fuel : Nat) (acc : List (Option Int)),
        EncryptLoop (fuel + 1) message e n 0 0 acc =
          EncryptLoop fuel message e n 0 0 (acc ++ [encryptBlock [] e n])) ∧
      (∀ fuel, EncryptLoop fuel message e n (blockSizeOf n) 0 [] = .unfinished) ∧
      Encrypt message e n = .unfinished ∧ ∀ r, Encrypt message e n ≠ .returned r) := by
  constructor
  · intro B hB hbs
    refine ⟨⟨_, Encrypt_eq B hB message e n hbs⟩, ?_, ?_⟩
    · intro fuel hf
      have h := EncryptLoop_chunks B hB message e n (chunkCount B message.length) 0 fuel []
        (by have := chunkCount_le B message.length hB; omega) (by omega)
      simp only [Nat.zero_mul, Nat.cast_zero] at h
      rw [h]
      simp
    · intro k fuel acc hk
      exact ⟨by omega, EncryptLoop_step B message e n k fuel acc hk⟩
  · intro hne h11
    have hlen : 0 < message.length := List.length_pos.mpr hne
    have hzero : blockSizeOf n = 0 := by
      unfold blockSizeOf paddingSize
      omega
    have hloop : ∀ fuel, EncryptLoop fuel message e n (blockSizeOf n) 0 [] = .unfinished := by
      intro fuel
      rw [hzero]
      exact EncryptLoop_zero_unfinished message e n hlen fuel []
    have hE : Encrypt message e n = .unfinished := by
      unfold Encrypt
      rw [hloop]
    refine ⟨hzero, EncryptLoop_zero_step message e n hlen, hloop, hE, ?_⟩
    intro r hr
    rw [hE] at hr
    exact absurd hr (by simp)

/-- C15, on the 104-bit modulus `2^103` (block size 2) with the message
`01 02 03`, and on the 89-bit modulus `2^88` (block size 0) with the message
`01`. -/
theorem C15_encrypt_termination_witness :
    (1 ≤ 2 ∧ blockSizeOf ((2 : Int) ^ 103) = ((2 : Nat) : Int) ∧
      ∃ cts, Encrypt [1, 2, 3] 3 ((2 : Int) ^ 103) = .returned (cts, ((2 : Nat) : Int))) ∧
    (([1] : List Byte) ≠ [] ∧ bigBitLen ((2 : Int) ^ 88) / 8 = 11 ∧
      blockSizeOf ((2 : Int) ^ 88) = 0 ∧
      (∀ fuel, EncryptLoop fuel [1] 3 ((2 : Int) ^ 88) (blockSizeOf ((2 : Int) ^ 88)) 0 [] =
        .unfinished) ∧
      Encrypt [1] 3 ((2 : Int) ^ 88) = .unfinished) :=
  have h2 : blockSizeOf ((2 : Int) ^ 103) = ((2 : Nat) : Int) := by
    rw [blockSizeOf, bigBitLen_two_pow]; decide
  have h11 : bigBitLen ((2 : Int) ^ 88) / 8 = 11 := by rw [bigBitLen_two_pow]
  have hz := (C15_encrypt_termination [1] 3 ((2 : Int) ^ 88)).2 (by decide) h11
  ⟨⟨by decide, h2, ((C15_encrypt_termination [1, 2, 3] 3 ((2 : Int) ^ 103)).1 2 (by decide) h2).1⟩,
    ⟨by decide, h11, hz.1, hz.2.2.1, hz.2.2.2.1⟩⟩

/-- C16: for every `n > 0` with `blockSize = floor(bitlen(n)/8) - 11 ≥ 1` and
every message, the blocks `Encrypt` passes to `encryptBlock` are the chunks of
the message, and each has a big-endian value strictly below `n`, indeed below
`2^(bitlen(n) - 88)`. -/
theorem C16_block_below_modulus (message : List Byte) (e n : Int) (B : Nat) (hn : 0 < n)
    (hB : 1 ≤ B) (hbs : blockSizeOf n = (B : Int)) :
    Encrypt message e n =
        .returned ((List.range (chunkCount B message.length)).map
          (fun k => encryptBlock (chunk B message k) e n), (B : Int)) ∧
      ∀ k, k < chunkCount B message.length →
        bigSetBytes (chunk B message k) < n ∧
        bigSetBytes (chunk B message k) < (2 : Int) ^ (bigBitLen n - 88) ∧
        (2 : Int) ^ (bigBitLen n - 88) ≤ n := by
  refine ⟨Encrypt_eq B hB message e n hbs, ?_⟩
  intro k _
  obtain ⟨h1, h2⟩ := chunk_value_lt n B hB hbs message k
  have habs : (n.natAbs : Int) = n := by omega
  have h1z : ((beValue (chunk B message k) : Nat) : Int) <
      ((2 ^ (bigBitLen n - 88) : Nat) : Int) := by exact_mod_cast h1
  have h2z : ((2 ^ (bigBitLen n - 88) : Nat) : Int) ≤ (n.natAbs : Int) := by exact_mod_cast h2
  rw [habs] at h2z
  push_cast at h1z h2z
  have hv : bigSetBytes (chunk B message k) = ((beValue (chunk B message k) : Nat) : Int) := rfl
  rw [hv]
  exact ⟨by omega, h1z, h2z⟩

/-- C16, on the 104-bit modulus `2^103` (block size 2) and the message
`ff ff ff`. -/
theorem C16_block_below_modulus_witness :
    (0 : Int) < (2 : Int) ^ 103 ∧ 1 ≤ 2 ∧ blockSizeOf ((2 : Int) ^ 103) = ((2 : Nat) : Int) ∧
      (Encrypt [255, 255, 255] 3 ((2 : Int) ^ 103) =
          .returned ((List.range (chunkCount 2 ([255, 255, 255] : List Byte).length)).map
            (fun k => encryptBlock (chunk 2 [255, 255, 255] k) 3 ((2 : Int) ^ 103)),
            ((2 : Nat) : Int)) ∧
        ∀ k, k < chunkCount 2 ([255, 255, 255] : List Byte).length →
          bigSetBytes (chunk 2 [255, 255, 255] k) < (2 : Int) ^ 103 ∧
          bigSetBytes (chunk 2 [255, 255, 255] k) <
            (2 : Int) ^ (bigBitLen ((2 : Int) ^ 103) - 88) ∧
          (2 : Int) ^ (bigBitLen ((2 : Int) ^ 103) - 88) ≤ (2 : Int) ^ 103) :=
  ⟨by positivity, by decide, by rw [blockSizeOf, bigBitLen_two_pow]; decide,
    C16_block_below_modulus [255, 255, 255] 3 ((2 : Int) ^ 103) 2 (by positivity) (by decide)
      (by rw [blockSizeOf, bigBitLen_two_pow]; decide)⟩

/-- C17: for all integers `a ≥ 1` and `m ≥ 1` the loop of `modInverse`
terminates (no fuel from `|m| + 1` on runs out), and it divides by zero
exactly when `a > 1` and `gcd(a, m) > 1`; under `gcd(a, m) = 1` the divisor is
never zero and `modInverse` returns. -/
theorem C17_modInverse_division_safety (a m : Int) (ha : 1 ≤ a) (hm : 1 ≤ m) :
    (∀ fuel, m.natAbs + 1 ≤ fuel → modInverseLoop fuel a m 0 1 ≠ .unfinished) ∧
      modInverse a m ≠ .unfinished ∧
      (modInverse a m = .panicked ↔ 1 < a ∧ 1 < Int.gcd a m) ∧
      (Int.gcd a m = 1 → ∃ x, modInverse a m = .returned x) := by
  have hcases := modInverse_cases a m ha hm
  refine ⟨fun fuel hf => modInverseLoop_finishes fuel a m 0 1 hf, ?_, ?_, ?_⟩
  · rcases hcases with ⟨_, _, h⟩ | ⟨_, x, h⟩ <;> rw [h] <;> simp
  · rcases hcases with ⟨h1, h2, h⟩ | ⟨hn, x, h⟩
    · exact ⟨fun _ => ⟨h1, h2⟩, fun _ => h⟩
    · constructor
      · intro hp
        rw [h] at hp
        exact absurd hp (by simp)
      · intro hc
        exact absurd hc hn
  · intro hg
    rcases hcases with ⟨_, h2, _⟩ | ⟨_, hx⟩
    · omega
    · exact hx

/-- C17, at `a = 4`, `m = 6` (`gcd = 2`, division by zero), with
`modInverse(5, 6) = 5` beside it. -/
theorem C17_modInverse_division_safety_witness :
    (1 : Int) ≤ 4 ∧ (1 : Int) ≤ 6 ∧ modInverse 4 6 = .panicked ∧ modInverse 5 6 = .returned 5 ∧
      ((∀ fuel, (6 : Int).natAbs + 1 ≤ fuel → modInverseLoop fuel 4 6 0 1 ≠ .unfinished) ∧
        modInverse 4 6 ≠ .unfinished ∧
        (modInverse 4 6 = .panicked ↔ (1 : Int) < 4 ∧ 1 < Int.gcd 4 6) ∧
        (Int.gcd 4 6 = 1 → ∃ x, modInverse 4 6 = .returned x)) :=
  ⟨by decide, by decide, by decide, by decide,
    C17_modInverse_division_safety 4 6 (by decide) (by decide)⟩

end RsaAlg
